import Mathlib

/-!
Shallow embedding of the concurrent fetch scheduler (`concurrentFetch` in the
downloader package) and proofs of the specified properties.

The scheduler is a single-threaded event loop owning four pieces of state:
the `pending` map (peer id to in-flight request), the `stales` map (peer id to
timed-out but unanswered request), a deadline min-heap `timeouts` with an
index map `ordering` kept in sync via the heap's index-tracking callback,
and the timeout timer.  External collaborators (peer set, rate tracker,
typed queue) are modelled as per-iteration oracles in `Env`; their observable
side effects are recorded in a `Call` trace.
-/

namespace ConcurrentFetch

/-- Peer identifier (Go: `peer.id`, a string). -/
abbrev PeerId := String

/-- A connected peer as enumerated by the peer set (`*peerConnection`);
only its identity is observable to the scheduler state. -/
structure Peer where
  id : PeerId
deriving DecidableEq, Repr

/-- An in-flight request (`*eth.Request`).  `rid` models pointer identity,
`peer` is `req.Peer`, and `sent` is `req.Sent` in nanoseconds. -/
structure Request where
  rid : Nat
  peer : PeerId
  sent : Int
deriving DecidableEq, Repr

/-- Outcome classification of `queue.deliver`: success, `errInvalidChain`,
`errStaleDelivery`, or any other (ignored) error. -/
inductive DErr where
  | ok
  | invalidChain
  | staleDelivery
  | other
deriving DecidableEq, Repr

/-- Terminal errors of the scheduler loop (`errNoPeers`, `errPeersUnavailable`,
`errCanceled`, `errTimeout`, `errInvalidChain`). -/
inductive Err where
  | noPeers
  | peersUnavailable
  | canceled
  | timeout
  | invalidChain
deriving DecidableEq, Repr

/-- Observable calls made by the scheduler to its external collaborators. -/
inductive Call where
  | reserveCall (p : PeerId) (items : Nat)
  | requestCall (p : PeerId)
  | unreserve (p : PeerId)
  | updateCapacity (p : PeerId) (items : Nat) (elapsed : Int)
  | dropPeer (p : PeerId)
  | deliverCall (p : PeerId) (rid : Nat)
  | doneSignal (rid : Nat)
  | closeReq (rid : Nat)
  | cancelCall
deriving DecidableEq, Repr

/-- One event consumed at the loop's selection point: cancellation, a peer
join or leave, the timeout timer firing, a response delivery (carrying the
request it answers and the measured round-trip time), or a waker signal. -/
inductive Event where
  | cancel
  | join (p : Peer)
  | leave (p : Peer)
  | timerFired
  | response (r : Request) (elapsed : Int)
  | wake (cont : Bool)
deriving DecidableEq, Repr

/-- Scheduler-owned state at an event-selection point.  `timeouts` is the
deadline heap held as a list in heap order (ascending deadlines, so the head
is the minimum); `ordering` is the request-to-index map maintained by the
heap's callback; `timer` is the armed expiry of the timeout timer (absolute
nanoseconds), or `none` when disarmed.  `nextRid` models the allocator for
fresh request identities. -/
structure SState where
  pending : List (PeerId × Request)
  stales : List (PeerId × Request)
  timeouts : List (Request × Int)
  ordering : List (Request × Nat)
  timer : Option Int
  finished : Bool
  nextRid : Nat
deriving DecidableEq, Repr

/-- Result of one loop iteration: continue with a new state, or return from
`concurrentFetch` (`none` is the nil success return).  The state at the
moment of return is carried so the deferred cleanup can be applied to it. -/
inductive StepRes where
  | next (s : SState)
  | done (r : Option Err) (s : SState)
deriving DecidableEq, Repr

/-- Per-iteration oracle for the external collaborators.  `qpending k` is the
result of the k-th call to `queue.pending()` in this iteration; `capacity1s`
is `queue.capacity(peer, time.Second)`; `capacityRtt` is
`queue.capacity(peer, TargetRoundTrip())`; `reserve` returns the optional
reservation plus the `progress` and `throttle` flags; `requestOk` tells
whether dispatching via `queue.request` succeeds; `ttl` is the
`TargetTimeout()` read while processing that peer; `unreserveFails` is the
count returned by `queue.unreserve`; `peerKnown` is whether `d.peers.Peer`
still knows the id; `masterPeer` is `d.cancelPeer`; `deliver` is the result
of `queue.deliver`. -/
structure Env where
  now : Int
  peers : List Peer
  qpending : Nat → Nat
  capacity1s : Peer → Nat
  capacityRtt : Peer → Nat
  reserve : Peer → Nat → (Option Unit × Bool × Bool)
  requestOk : Peer → Bool
  ttl : Peer → Int
  unreserveFails : PeerId → Nat
  peerKnown : PeerId → Bool
  masterPeer : PeerId
  deliver : Request → (Nat × DErr)

/-- The grace period allowed to a timed-out peer before it is considered to
be stalling (Go: `timeoutGracePeriod = 2 * time.Minute`), in nanoseconds. -/
def timeoutGracePeriod : Int := 120000000000

/-- Association-list lookup (Go map read `l[k]`). -/
def alook {α β : Type} [DecidableEq α] (k : α) : List (α × β) → Option β
  | [] => none
  | e :: es => if e.1 = k then some e.2 else alook k es

/-- Association-list key removal (Go `delete(l, k)`). -/
def aerase {α β : Type} [DecidableEq α] (k : α) (l : List (α × β)) : List (α × β) :=
  l.filter (fun e => decide (e.1 ≠ k))

/-- Association-list write (Go map assignment `l[k] = v`). -/
def ains {α β : Type} [DecidableEq α] (k : α) (v : β) (l : List (α × β)) : List (α × β) :=
  (k, v) :: aerase k l

/-- Modelled from the spec: the Deadline Heap (`common/prque`, not under
src/).  Per the spec it is a min-heap over deadlines supporting push, pop,
peek and removal by index; we realise it as a deadline-ordered list whose
head is the minimum, with `heapPush` the ordered insertion (a new entry with
an equal deadline lands after existing ones, matching sift-up with a strict
comparison). -/
def heapPush (r : Request) (d : Int) : List (Request × Int) → List (Request × Int)
  | [] => [(r, d)]
  | e :: es => if e.2 ≤ d then e :: heapPush r d es else (r, d) :: e :: es

/-- Modelled from the spec: the index-tracking callback of the Deadline Heap.
After every complete heap operation the callback has updated the scheduler's
`ordering` map so that every element of the heap is mapped to its current
index; `indexAssocAux n h` enumerates `h` starting at index `n`. -/
def indexAssocAux : Nat → List (Request × Int) → List (Request × Nat)
  | _, [] => []
  | n, e :: es => (e.1, n) :: indexAssocAux (n + 1) es

/-- The `ordering` contents determined by the heap `h` (indices from 0). -/
def indexAssoc (h : List (Request × Int)) : List (Request × Nat) :=
  indexAssocAux 0 h

/-- Modelled from the spec: one insertion step of `sort.Sort` over
`peerCapacitySort` (neither is under src/); the spec prescribes capacity
descending with ties broken by insertion order, i.e. a stable descending
sort. -/
def insDesc (x : Peer × Nat) : List (Peer × Nat) → List (Peer × Nat)
  | [] => [x]
  | y :: ys => if y.2 ≤ x.2 then x :: y :: ys else y :: insDesc x ys

/-- Modelled from the spec: stable sort of the idle peers by capacity,
descending (spec 4.5.2 step 2). -/
def sortDesc : List (Peer × Nat) → List (Peer × Nat)
  | [] => []
  | x :: xs => insDesc x (sortDesc xs)

/-- The idle-collection sweep over `d.peers.AllPeers()`: a peer with neither
a pending nor a stale request is idle and gets its 1-second capacity
computed; a peer with a stale request older than the grace period is dropped
(the `dropPeer` call is recorded; the stale entry itself is kept). -/
def collectIdles (pend st : List (PeerId × Request)) (now : Int) (cap : Peer → Nat) :
    List Peer → (List (Peer × Nat) × List Call)
  | [] => ([], [])
  | peer :: rest =>
    let r := collectIdles pend st now cap rest
    match alook peer.id pend, alook peer.id st with
    | none, none => ((peer, cap peer) :: r.1, r.2)
    | _, some strq =>
      (r.1, (if timeoutGracePeriod < now - strq.sent then [Call.dropPeer peer.id] else []) ++ r.2)
    | some _, none => (r.1, r.2)

/-- Accumulator of the assignment loop: current state, the `progressed` and
`throttled` flags, the last `queued` reading, the index of the next
`queue.pending()` call, and the trace so far. -/
structure AssignOut where
  st : SState
  progressed : Bool
  throttled : Bool
  queued : Nat
  kNext : Nat
  trace : List Call
deriving Repr

/-- The per-peer assignment loop (source lines 190-241): stop on throttling
or an exhausted queue; otherwise reserve `capacity(peer, TargetRoundTrip)`
items, skip the peer if the reservation is absent, dispatch the request and
on dispatch failure unreserve and continue; on success record the request in
`pending`, push its deadline and arm the timer if the heap was empty. -/
def assignLoop (env : Env) : List Peer → AssignOut → AssignOut
  | [], a => a
  | peer :: rest, a =>
    if a.throttled then a
    else
      let q := env.qpending a.kNext
      if q = 0 then { a with queued := q, kNext := a.kNext + 1 }
      else
        let cap := env.capacityRtt peer
        let rro := env.reserve peer cap
        let a2 : AssignOut := { a with
          queued := q, kNext := a.kNext + 1,
          progressed := a.progressed || rro.2.1,
          throttled := a.throttled || rro.2.2,
          trace := a.trace ++ [Call.reserveCall peer.id cap] }
        match rro.1 with
        | none => assignLoop env rest a2
        | some _ =>
          if env.requestOk peer then
            let req : Request := ⟨a2.st.nextRid, peer.id, env.now⟩
            let dl := env.now + env.ttl peer
            let h2 := heapPush req dl a2.st.timeouts
            let st2 : SState := { a2.st with
              pending := ains peer.id req a2.st.pending,
              timeouts := h2,
              ordering := indexAssoc h2,
              timer := if a2.st.timeouts = [] then some dl else a2.st.timer,
              nextRid := a2.st.nextRid + 1 }
            assignLoop env rest { a2 with st := st2, trace := a2.trace ++ [Call.requestCall peer.id] }
          else
            assignLoop env rest
              { a2 with trace := a2.trace ++ [Call.requestCall peer.id, Call.unreserve peer.id] }

/-- The whole assignment phase (source lines 156-241): collect idles and
apply the grace-period policy, sort idles by capacity descending, then run
the assignment loop.  Returns the loop's output and the number of idle
peers (used by the starvation check). -/
def assignPhase (s : SState) (env : Env) : AssignOut × Nat :=
  (assignLoop env
    ((sortDesc (collectIdles s.pending s.stales env.now env.capacity1s env.peers).1).map
      Prod.fst)
    ⟨s, false, false, env.qpending 1, 2,
      (collectIdles s.pending s.stales env.now env.capacity1s env.peers).2⟩,
   (collectIdles s.pending s.stales env.now env.capacity1s env.peers).1.length)

/-- The scheduler state carried by a step result. -/
def resState : StepRes → SState
  | .next s => s
  | .done _ s => s

/-- The tracked-request removal block shared by the peer-leave and delivery
handlers (source lines 283-297 and 384-395): if the request is still in the
`ordering` map, remove it from the heap at its recorded index and, when the
removed entry was the minimum, stop the timer and re-arm it to the new
minimum if the heap is still non-empty; finally delete the `ordering`
entry. -/
def removeFromHeap (s : SState) (req : Request) : SState :=
  match alook req s.ordering with
  | some index =>
    if index < s.timeouts.length then
      let h2 := s.timeouts.eraseIdx index
      { s with
        timeouts := h2,
        ordering := aerase req (indexAssoc h2),
        timer := if index = 0 then h2.head?.map Prod.snd else s.timer }
    else { s with ordering := aerase req s.ordering }
  | none => s

/-- Peer-leave handler (source lines 275-303): if the peer has a pending
request, unreserve it, remove it from `pending`, close it, and remove its
heap node (re-arming or disarming the timer when the minimum was removed);
if the peer has a stale request, remove and close it. -/
def handleLeave (s : SState) (peerid : PeerId) : SState × List Call :=
  let pr :=
    match alook peerid s.pending with
    | some req =>
      let s1 : SState := { s with pending := aerase peerid s.pending }
      (removeFromHeap s1 req, [Call.unreserve peerid, Call.closeReq req.rid])
    | none => (s, [])
  match alook peerid pr.1.stales with
  | some req2 =>
    ({ pr.1 with stales := aerase peerid pr.1.stales }, pr.2 ++ [Call.closeReq req2.rid])
  | none => pr

/-- Timer-expiry handler (source lines 305-374): peek the heap minimum; on a
spurious wakeup re-arm for the remainder; otherwise move the request's peer
from `pending` to `stales`, pop the heap, re-arm to the new minimum if any,
unreserve the peer, then apply the timeout policy: with more than two failed
items only reset the peer's capacity, otherwise drop the peer and, if it was
the master peer, cancel the sync with the timeout error. -/
def handleTimeout (s : SState) (env : Env) : StepRes × List Call :=
  match s.timeouts.head? with
  | none => (.next s, [])
  | some e =>
    if env.now < e.2 then
      (.next { s with timer := some e.2 }, [])
    else
      let req := e.1
      let h2 := s.timeouts.tail
      let s2 : SState := { s with
        pending := aerase req.peer s.pending,
        stales := ains req.peer req s.stales,
        timeouts := h2,
        timer := h2.head?.map Prod.snd,
        ordering := aerase req (indexAssoc h2) }
      let fails := env.unreserveFails req.peer
      if env.peerKnown req.peer = false then (.next s2, [Call.unreserve req.peer])
      else if 2 < fails then
        (.next s2, [Call.unreserve req.peer, Call.updateCapacity req.peer 0 0])
      else if req.peer = env.masterPeer then
        (.done (some Err.timeout) s2,
          [Call.unreserve req.peer, Call.dropPeer req.peer, Call.cancelCall])
      else (.next s2, [Call.unreserve req.peer, Call.dropPeer req.peer])

/-- Delivery handler (source lines 376-424): if the request is still tracked
by `ordering`, remove it from the heap and fix up the timer; remove the
responding peer from both `pending` and `stales`; signal and close the
request; then, only if the peer is still known, deliver the data — an
invalid-chain failure terminates the scheduler, and the capacity estimate is
updated unless the delivery was stale. -/
def handleResponse (s : SState) (env : Env) (r : Request) (elapsed : Int) : StepRes × List Call :=
  let s1 := removeFromHeap s r
  let s2 : SState := { s1 with
    pending := aerase r.peer s1.pending,
    stales := aerase r.peer s1.stales }
  let tr := [Call.doneSignal r.rid, Call.closeReq r.rid]
  if env.peerKnown r.peer = true then
    let dres := env.deliver r
    let tr2 := tr ++ [Call.deliverCall r.peer r.rid]
    if dres.2 = DErr.invalidChain then (.done (some Err.invalidChain) s2, tr2)
    else if dres.2 = DErr.staleDelivery then (.next s2, tr2)
    else (.next s2, tr2 ++ [Call.updateCapacity r.peer dres.1 elapsed])
  else (.next s2, tr)

/-- Event dispatch of the selection point (source lines 249-431). -/
def handleEvent (s : SState) (env : Env) : Event → StepRes × List Call
  | .cancel => (.done (some Err.canceled) s, [])
  | .join _ => (.next s, [])
  | .leave p => (.next (handleLeave s p.id).1, (handleLeave s p.id).2)
  | .timerFired => handleTimeout s env
  | .response r t => handleResponse s env r t
  | .wake c => if c then (.next s, []) else (.next { s with finished := true }, [])

/-- One iteration of the scheduler loop: the no-peers check, then either the
success check (when the queue reports nothing to fetch) or the assignment
phase followed by the starvation check, then the handling of one selected
event. -/
def step (beacon : Bool) (s : SState) (env : Env) (ev : Event) : StepRes × List Call :=
  if env.peers.length = 0 ∧ beacon = false then (.done (some Err.noPeers) s, [])
  else if env.qpending 0 = 0 then
    if s.pending = [] ∧ s.finished = true then (.done none s, [])
    else handleEvent s env ev
  else
    if (assignPhase s env).1.progressed = false ∧ (assignPhase s env).1.throttled = false ∧
        (assignPhase s env).1.st.pending = [] ∧ (assignPhase s env).2 = env.peers.length ∧
        0 < (assignPhase s env).1.queued ∧ beacon = false then
      (.done (some Err.peersUnavailable) (assignPhase s env).1.st, (assignPhase s env).1.trace)
    else
      ((handleEvent (assignPhase s env).1.st env ev).1,
        (assignPhase s env).1.trace ++ (handleEvent (assignPhase s env).1.st env ev).2)

/-- The scheduler's initial state: empty maps, empty heap, timer stopped. -/
def initState : SState := ⟨[], [], [], [], none, false, 0⟩

/-- Run the loop over a finite schedule of (oracle, event) iterations,
accumulating the trace, until a return or the schedule is exhausted. -/
def loopRun (beacon : Bool) : List (Env × Event) → SState → List Call →
    (Option (Option Err) × SState × List Call)
  | [], s, tr => (none, s, tr)
  | ie :: rest, s, tr =>
    match step beacon s ie.1 ie.2 with
    | (.next s2, tr2) => loopRun beacon rest s2 (tr ++ tr2)
    | (.done r sF, tr2) => (some r, sF, tr ++ tr2)

/-- The whole of `concurrentFetch` on a finite schedule: on any return, the
deferred cleanup (source lines 88-95 and 122-129) closes every request still
in `pending` and every request still in `stales`. -/
def concurrentFetch (beacon : Bool) (inputs : List (Env × Event)) :
    Option (Option Err) × List Call :=
  match loopRun beacon inputs initState [] with
  | (some r, sF, tr) =>
    (some r, tr ++ sF.pending.map (fun pr => Call.closeReq pr.2.rid)
        ++ sF.stales.map (fun pr => Call.closeReq pr.2.rid))
  | (none, _, tr) => (none, tr)

/-- A response event must answer a live (not yet closed) request, i.e. one
still held in `pending` or `stales` — the dispatcher cannot deliver into a
closed request.  All other events are unconstrained. -/
def LiveEvent (s : SState) : Event → Prop
  | .response r _ => (∃ p, (p, r) ∈ s.pending) ∨ (∃ p, (p, r) ∈ s.stales)
  | _ => True

/-- Well-formedness of an iteration's inputs: the peer enumeration has no
duplicate ids, and a response event answers a live request. -/
def EventOK (s : SState) (env : Env) (ev : Event) : Prop :=
  (env.peers.map Peer.id).Nodup ∧ LiveEvent s ev

/-- States reachable by the scheduler loop at its event-selection points. -/
inductive Reached (beacon : Bool) : SState → Prop where
  | init : Reached beacon initState
  | next : ∀ {s env ev s2 tr}, Reached beacon s → EventOK s env ev →
      step beacon s env ev = (StepRes.next s2, tr) → Reached beacon s2

/-- A reachable scheduler state with one in-flight request for peer A, sent
at time 0 with deadline 100; the timer is armed for 100. -/
def cexS1 : SState :=
  ⟨[("A", ⟨0, "A", 0⟩)], [], [(⟨0, "A", 0⟩, 100)], [(⟨0, "A", 0⟩, 0)], some 100, false, 1⟩

/-- The state after a second iteration dispatches to peer B with a shorter
target timeout: deadline 30 was pushed onto the non-empty heap, which did
not re-arm the timer, leaving the expiry at 100 above the heap minimum
30. -/
def cexS2 : SState :=
  ⟨[("B", ⟨1, "B", 10⟩), ("A", ⟨0, "A", 0⟩)], [],
   [(⟨1, "B", 10⟩, 30), (⟨0, "A", 0⟩, 100)],
   [(⟨1, "B", 10⟩, 0), (⟨0, "A", 0⟩, 1)], some 100, false, 2⟩

/-- The state after peer A's request times out with `fails > 2`: A sits in
`stales` with its request sent at time 0, the heap is empty and the timer
disarmed. -/
def cexS3 : SState := ⟨[], [("A", ⟨0, "A", 0⟩)], [], [], none, false, 1⟩

/-- Oracle for the first iteration reaching `cexS1`: one peer A, work
queued, reservation succeeds, target timeout 100. -/
def cexEnv1 : Env :=
  ⟨0, [⟨"A"⟩], fun _ => 1, fun _ => 10, fun _ => 10, fun _ _ => (some (), true, false),
   fun _ => true, fun _ => 100, fun _ => 5, fun _ => true, "M", fun _ => (0, DErr.ok)⟩

/-- Oracle for the iteration from `cexS1` to `cexS2`: peer B joined and the
target timeout shrank to 20, so B's deadline 10+20=30 undercuts the armed
expiry 100. -/
def cexEnv2 : Env :=
  ⟨10, [⟨"A"⟩, ⟨"B"⟩], fun _ => 1, fun _ => 10, fun _ => 10, fun _ _ => (some (), true, false),
   fun _ => true, fun _ => 20, fun _ => 5, fun _ => true, "M", fun _ => (0, DErr.ok)⟩

/-- Oracle for the timer-expiry iteration from `cexS1` to `cexS3`: time 200
is past A's deadline 100, the queue reports nothing, and `unreserve`
reports 5 failed items, so A only has its capacity reset. -/
def cexEnvT : Env :=
  ⟨200, [⟨"A"⟩], fun _ => 0, fun _ => 10, fun _ => 10, fun _ _ => (some (), true, false),
   fun _ => true, fun _ => 100, fun _ => 5, fun _ => true, "M", fun _ => (0, DErr.ok)⟩

/-- Oracle for an iteration at time 200s — far beyond the 120s grace
period — whose queue reports no pending work, so no assignment pass (and no
grace check) runs. -/
def cexEnvW : Env :=
  ⟨200000000000, [⟨"A"⟩], fun _ => 0, fun _ => 10, fun _ => 10,
   fun _ _ => (some (), true, false), fun _ => true, fun _ => 100, fun _ => 5,
   fun _ => true, "M", fun _ => (0, DErr.ok)⟩

/-! ### Association-list lemmas -/

theorem mem_aerase {α β : Type} [DecidableEq α] {k : α} {l : List (α × β)} {x : α × β} :
    x ∈ aerase k l ↔ x ∈ l ∧ x.1 ≠ k := by
  simp [aerase, List.mem_filter]

theorem aerase_eq_self {α β : Type} [DecidableEq α] {k : α} {l : List (α × β)}
    (h : k ∉ l.map Prod.fst) : aerase k l = l := by
  apply List.filter_eq_self.2
  intro x hx
  simp only [decide_eq_true_eq]
  intro hxk
  exact h (List.mem_map.2 ⟨x, hx, hxk⟩)

theorem aerase_map_fst_sublist {α β : Type} [DecidableEq α] (k : α) (l : List (α × β)) :
    List.Sublist ((aerase k l).map Prod.fst) (l.map Prod.fst) :=
  (List.filter_sublist l).map Prod.fst

theorem not_mem_keys_aerase {α β : Type} [DecidableEq α] (k : α) (l : List (α × β)) :
    k ∉ (aerase k l).map Prod.fst := by
  intro h
  rcases List.mem_map.1 h with ⟨x, hx, hfst⟩
  exact (mem_aerase.1 hx).2 hfst

theorem alook_mem {α β : Type} [DecidableEq α] {k : α} {l : List (α × β)} {v : β}
    (h : alook k l = some v) : (k, v) ∈ l := by
  induction l with
  | nil => simp [alook] at h
  | cons e es ih =>
    obtain ⟨a, b⟩ := e
    by_cases he : a = k
    · subst he
      rw [alook, if_pos rfl] at h
      injection h with h
      subst h
      exact List.mem_cons_self _ _
    · rw [alook, if_neg he] at h
      exact List.mem_cons_of_mem _ (ih h)

theorem alook_eq_none {α β : Type} [DecidableEq α] {k : α} {l : List (α × β)} :
    alook k l = none ↔ k ∉ l.map Prod.fst := by
  induction l with
  | nil => simp [alook]
  | cons e es ih =>
    by_cases he : e.1 = k
    · simp [alook, he]
    · simp [alook, he, ih, Ne.symm he]

theorem alook_of_mem {α β : Type} [DecidableEq α] {k : α} {l : List (α × β)} {v : β}
    (hnd : (l.map Prod.fst).Nodup) (h : (k, v) ∈ l) : alook k l = some v := by
  induction l with
  | nil => cases h
  | cons e es ih =>
    simp only [List.map_cons, List.nodup_cons] at hnd
    rcases List.mem_cons.1 h with h | h
    · rw [← h]
      simp [alook]
    · have hk : e.1 ≠ k := by
        intro hek
        exact hnd.1 (hek ▸ (List.mem_map.2 ⟨(k, v), h, rfl⟩))
      simp [alook, hk, ih hnd.2 h]

theorem mem_keys_unique {α β : Type} [DecidableEq α] {k : α} {l : List (α × β)} {a b : β}
    (hnd : (l.map Prod.fst).Nodup) (ha : (k, a) ∈ l) (hb : (k, b) ∈ l) : a = b := by
  have h1 := alook_of_mem hnd ha
  have h2 := alook_of_mem hnd hb
  rw [h1] at h2
  exact Option.some_inj.1 h2

theorem mem_ains {α β : Type} [DecidableEq α] {k : α} {v : β} {l : List (α × β)} {x : α × β} :
    x ∈ ains k v l ↔ x = (k, v) ∨ (x ∈ l ∧ x.1 ≠ k) := by
  simp [ains, mem_aerase]

theorem keys_ains_nodup {α β : Type} [DecidableEq α] {k : α} {v : β} {l : List (α × β)}
    (hnd : (l.map Prod.fst).Nodup) : ((ains k v l).map Prod.fst).Nodup := by
  simp only [ains, List.map_cons, List.nodup_cons]
  exact ⟨not_mem_keys_aerase k l, (aerase_map_fst_sublist k l).nodup hnd⟩

theorem mem_map_fst {α β : Type} {l : List (α × β)} {k : α} :
    k ∈ l.map Prod.fst ↔ ∃ v, (k, v) ∈ l := by
  constructor
  · intro h
    rcases List.mem_map.1 h with ⟨x, hx, he⟩
    obtain ⟨a, b⟩ := x
    cases he
    exact ⟨b, hx⟩
  · rintro ⟨v, hv⟩
    exact List.mem_map.2 ⟨(k, v), hv, rfl⟩

/-! ### Index-map lemmas -/

theorem idxAux_map_fst (n : Nat) (h : List (Request × Int)) :
    (indexAssocAux n h).map Prod.fst = h.map Prod.fst := by
  induction h generalizing n with
  | nil => rfl
  | cons e es ih => simp [indexAssocAux, ih]

theorem indexAssoc_map_fst (h : List (Request × Int)) :
    (indexAssoc h).map Prod.fst = h.map Prod.fst :=
  idxAux_map_fst 0 h

theorem alook_idxAux_none {r : Request} {n : Nat} {h : List (Request × Int)} :
    alook r (indexAssocAux n h) = none ↔ r ∉ h.map Prod.fst := by
  rw [alook_eq_none, idxAux_map_fst]

theorem alook_idxAux_isSome {r : Request} {n : Nat} {h : List (Request × Int)}
    (hm : r ∈ h.map Prod.fst) : ∃ i, alook r (indexAssocAux n h) = some i := by
  cases he : alook r (indexAssocAux n h) with
  | some i => exact ⟨i, rfl⟩
  | none => exact absurd (alook_idxAux_none.1 he) (by simp [hm])

theorem alook_idxAux_spec {r : Request} {h : List (Request × Int)} {n i : Nat}
    (hnd : (h.map Prod.fst).Nodup) (hl : alook r (indexAssocAux n h) = some i) :
    n ≤ i ∧ i - n < h.length ∧
    h.eraseIdx (i - n) = h.filter (fun e => decide (e.1 ≠ r)) ∧
    ((i = n) ↔ ∃ d tl, h = (r, d) :: tl) := by
  induction h generalizing n i with
  | nil => simp [indexAssocAux, alook] at hl
  | cons e es ih =>
    simp only [List.map_cons, List.nodup_cons] at hnd
    by_cases he : e.1 = r
    · rw [indexAssocAux, alook, if_pos he] at hl
      injection hl with hl
      subst hl
      refine ⟨le_refl n, by simp, ?_, ?_⟩
      · have hes : es.filter (fun x => decide (x.1 ≠ r)) = es := by
          apply List.filter_eq_self.2
          intro x hx
          simp only [decide_eq_true_eq]
          intro hxr
          exact hnd.1 (he ▸ hxr ▸ List.mem_map.2 ⟨x, hx, rfl⟩)
        have h0 : (e :: es).eraseIdx (n - n) = es := by
          rw [Nat.sub_self]
          rfl
        have hfe : (decide (e.1 ≠ r)) = false := by simp [he]
        rw [h0, List.filter_cons]
        simp only [hfe, hes]
        simp
      · simp only [true_iff]
        exact ⟨e.2, es, by rw [← he]⟩
    · rw [indexAssocAux, alook, if_neg he] at hl
      obtain ⟨h1, h2, h3, h4⟩ := ih hnd.2 hl
      have hin : n < i := Nat.lt_of_succ_le h1
      refine ⟨le_of_lt hin, ?_, ?_, ?_⟩
      · simp only [List.length_cons]
        omega
      · have hsub : i - n = (i - (n + 1)) + 1 := by omega
        rw [hsub]
        simp only [List.eraseIdx_cons_succ, List.filter_cons, decide_eq_true_eq]
        rw [if_pos he, h3]
      · constructor
        · intro hi
          omega
        · rintro ⟨d, tl, hd⟩
          cases hd
          exact absurd rfl he

/-! ### Heap lemmas -/

theorem heapPush_perm (r : Request) (d : Int) (h : List (Request × Int)) :
    List.Perm (heapPush r d h) ((r, d) :: h) := by
  induction h with
  | nil => rfl
  | cons e es ih =>
    by_cases hc : e.2 ≤ d
    · simp only [heapPush, if_pos hc]
      exact (ih.cons e).trans (List.Perm.swap _ _ _)
    · simp [heapPush, if_neg hc]

theorem mem_heapPush {r : Request} {d : Int} {h : List (Request × Int)} {x : Request × Int} :
    x ∈ heapPush r d h ↔ x = (r, d) ∨ x ∈ h := by
  rw [(heapPush_perm r d h).mem_iff, List.mem_cons]

theorem heapPush_pairwise {r : Request} {d : Int} {h : List (Request × Int)}
    (hp : List.Pairwise (fun a b : Request × Int => a.2 ≤ b.2) h) :
    List.Pairwise (fun a b : Request × Int => a.2 ≤ b.2) (heapPush r d h) := by
  induction h with
  | nil => simp [heapPush]
  | cons e es ih =>
    rcases List.pairwise_cons.1 hp with ⟨he, hes⟩
    by_cases hc : e.2 ≤ d
    · simp only [heapPush, if_pos hc]
      refine List.pairwise_cons.2 ⟨?_, ih hes⟩
      intro x hx
      rcases mem_heapPush.1 hx with hx | hx
      · rw [hx]
        exact hc
      · exact he x hx
    · simp only [heapPush, if_neg hc]
      refine List.pairwise_cons.2 ⟨?_, hp⟩
      intro x hx
      rcases List.mem_cons.1 hx with hx | hx
      · rw [hx]
        exact le_of_lt (lt_of_not_le hc)
      · exact le_trans (le_of_lt (lt_of_not_le hc)) (he x hx)

theorem heapPush_ne_nil (r : Request) (d : Int) (h : List (Request × Int)) :
    heapPush r d h ≠ [] := by
  intro hn
  have := (heapPush_perm r d h).length_eq
  rw [hn] at this
  simp at this

theorem heapPush_head_nil (r : Request) (d : Int) :
    (heapPush r d []).head? = some (r, d) := rfl

theorem heapPush_head_cons (r : Request) (d : Int) (e : Request × Int)
    (es : List (Request × Int)) :
    (heapPush r d (e :: es)).head? = some (if e.2 ≤ d then e else (r, d)) := by
  by_cases hc : e.2 ≤ d
  · simp only [heapPush, if_pos hc]
    cases hp : heapPush r d es with
    | nil => exact absurd hp (heapPush_ne_nil r d es)
    | cons x xs => rfl
  · simp only [heapPush, if_neg hc]
    rfl

/-! ### The loop invariant -/

/-- The internal consistency invariant of the scheduler state, holding at
every event-selection point: keys of `pending` and `stales` are unique and
disjoint; every tracked request is keyed by its own peer id; the heap's
entries are exactly the values of `pending`; the `ordering` map is exactly
the index map of the heap; the heap is ordered by deadline; the timer is
armed exactly when the heap is non-empty and never earlier than the heap
minimum; and all tracked request identities are below the allocator. -/
structure Inv (s : SState) : Prop where
  pk : (s.pending.map Prod.fst).Nodup
  sk : (s.stales.map Prod.fst).Nodup
  pcoh : ∀ x ∈ s.pending, (x : PeerId × Request).2.peer = x.1
  scoh : ∀ x ∈ s.stales, (x : PeerId × Request).2.peer = x.1
  disj : ∀ k, k ∈ s.pending.map Prod.fst → k ∉ s.stales.map Prod.fst
  hvals : ∀ r : Request, (∃ d, (r, d) ∈ s.timeouts) ↔ (∃ p, (p, r) ∈ s.pending)
  hnd : (s.timeouts.map Prod.fst).Nodup
  ordeq : s.ordering = indexAssoc s.timeouts
  hsort : List.Pairwise (fun a b : Request × Int => a.2 ≤ b.2) s.timeouts
  tarm : s.timer = none ↔ s.timeouts = []
  texp : ∀ E e, s.timer = some E → s.timeouts.head? = some e → e.2 ≤ E
  fresh : ∀ x ∈ s.timeouts, (x : Request × Int).1.rid < s.nextRid

theorem inv_initState : Inv initState := by
  refine ⟨?_, ?_, ?_, ?_, ?_, ?_, ?_, ?_, ?_, ?_, ?_, ?_⟩ <;> simp [initState, indexAssoc, indexAssocAux]

theorem mem_keys_of_mem {α β : Type} {l : List (α × β)} {x : α × β} (h : x ∈ l) :
    x.1 ∈ l.map Prod.fst :=
  List.mem_map.2 ⟨x, h, rfl⟩

theorem eraseIdx_cons_ne_zero {α : Type} (e : α) (tl : List α) {i : Nat} (hi : i ≠ 0) :
    (e :: tl).eraseIdx i = e :: tl.eraseIdx (i - 1) := by
  cases i with
  | zero => exact absurd rfl hi
  | succ j => rfl

/-- Behaviour of the shared heap-removal block under the heap/ordering sync
invariant: it never touches `pending`, `stales`, `finished` or `nextRid`;
the heap loses exactly the entries keyed by the removed request; the
`ordering` map stays the exact index map; and the timer either stays as it
was with the heap minimum unchanged, or — when the removed request was the
minimum — is re-armed to the new minimum (disarmed if the heap emptied). -/
theorem removeFromHeap_spec (s : SState) (req : Request)
    (hnd : (s.timeouts.map Prod.fst).Nodup)
    (hord : s.ordering = indexAssoc s.timeouts) :
    (removeFromHeap s req).pending = s.pending ∧
    (removeFromHeap s req).stales = s.stales ∧
    (removeFromHeap s req).finished = s.finished ∧
    (removeFromHeap s req).nextRid = s.nextRid ∧
    (removeFromHeap s req).timeouts = aerase req s.timeouts ∧
    (removeFromHeap s req).ordering = indexAssoc (removeFromHeap s req).timeouts ∧
    ((removeFromHeap s req).timer = s.timer ∧
       (removeFromHeap s req).timeouts.head? = s.timeouts.head? ∨
     ∃ d tl, s.timeouts = (req, d) :: tl ∧ (removeFromHeap s req).timeouts = tl ∧
       (removeFromHeap s req).timer = tl.head?.map Prod.snd) := by
  cases hl : alook req s.ordering with
  | none =>
    have ht : removeFromHeap s req = s := by
      simp [removeFromHeap, hl]
    have hnm : req ∉ s.timeouts.map Prod.fst := by
      rw [hord] at hl
      exact alook_idxAux_none.1 hl
    rw [ht]
    exact ⟨rfl, rfl, rfl, rfl, (aerase_eq_self hnm).symm, hord, Or.inl ⟨rfl, rfl⟩⟩
  | some i =>
    have hl2 := hl
    rw [hord, indexAssoc] at hl2
    obtain ⟨-, hlen, herase, hzero⟩ := alook_idxAux_spec hnd hl2
    rw [Nat.sub_zero] at hlen herase
    have herase2 : s.timeouts.eraseIdx i = aerase req s.timeouts := herase
    have hordnew : aerase req (indexAssoc (s.timeouts.eraseIdx i)) =
        indexAssoc (s.timeouts.eraseIdx i) := by
      apply aerase_eq_self
      rw [indexAssoc_map_fst, herase2]
      exact not_mem_keys_aerase req s.timeouts
    have ht : removeFromHeap s req = { s with
        timeouts := s.timeouts.eraseIdx i,
        ordering := aerase req (indexAssoc (s.timeouts.eraseIdx i)),
        timer := if i = 0 then ((s.timeouts.eraseIdx i).head?).map Prod.snd else s.timer } := by
      simp [removeFromHeap, hl, if_pos hlen]
    rw [ht]
    refine ⟨rfl, rfl, rfl, rfl, herase2, hordnew, ?_⟩
    by_cases hz : i = 0
    · subst hz
      obtain ⟨d, tl, htl⟩ := hzero.1 rfl
      refine Or.inr ⟨d, tl, htl, ?_, ?_⟩
      · rw [htl]
        rfl
      · simp only [if_pos rfl]
        rw [htl]
        rfl
    · have h1 : (if i = 0 then ((s.timeouts.eraseIdx i).head?).map Prod.snd else s.timer) =
          s.timer := if_neg hz
      have h2 : (s.timeouts.eraseIdx i).head? = s.timeouts.head? := by
        cases hts : s.timeouts with
        | nil =>
          rw [hts] at hlen
          simp at hlen
        | cons e tl =>
          rw [eraseIdx_cons_ne_zero e tl hz]
          rfl
      exact Or.inl ⟨h1, h2⟩

theorem timer_facts {t : SState} {sTimer : Option Int} {sHeap : List (Request × Int)}
    (harm : sTimer = none ↔ sHeap = [])
    (hexp : ∀ E e, sTimer = some E → sHeap.head? = some e → e.2 ≤ E)
    (hcase : (t.timer = sTimer ∧ t.timeouts.head? = sHeap.head?) ∨
      t.timer = t.timeouts.head?.map Prod.snd) :
    (t.timer = none ↔ t.timeouts = []) ∧
    (∀ E e, t.timer = some E → t.timeouts.head? = some e → e.2 ≤ E) := by
  rcases hcase with ⟨h1, h2⟩ | h
  · constructor
    · rw [h1, harm, ← List.head?_eq_none_iff, ← h2, List.head?_eq_none_iff]
    · intro E e hE he
      exact hexp E e (h1 ▸ hE) (h2 ▸ he)
  · constructor
    · rw [h, ← List.head?_eq_none_iff]
      cases t.timeouts.head? <;> simp
    · intro E e hE he
      rw [h, he] at hE
      have h3 : some e.2 = some E := hE
      injection h3 with h3
      rw [h3]

theorem hvals_erase {s : SState} (hs : Inv s) {req : Request}
    (hm : (req.peer, req) ∈ s.pending) :
    ∀ r : Request,
      (∃ d, (r, d) ∈ aerase req s.timeouts) ↔ (∃ p, (p, r) ∈ aerase req.peer s.pending) := by
  intro r
  constructor
  · rintro ⟨d, hd⟩
    obtain ⟨hd1, hd2⟩ := mem_aerase.1 hd
    obtain ⟨p, hp⟩ := (hs.hvals r).1 ⟨d, hd1⟩
    refine ⟨p, mem_aerase.2 ⟨hp, ?_⟩⟩
    intro hpe
    have hpe2 : p = req.peer := hpe
    rw [hpe2] at hp
    apply hd2
    show r = req
    exact mem_keys_unique hs.pk hp hm
  · rintro ⟨p, hp⟩
    obtain ⟨hp1, hp2⟩ := mem_aerase.1 hp
    obtain ⟨d, hd⟩ := (hs.hvals r).2 ⟨p, hp1⟩
    refine ⟨d, mem_aerase.2 ⟨hd, ?_⟩⟩
    intro hre
    have hre2 : r = req := hre
    apply hp2
    have hcoh : r.peer = p := hs.pcoh _ hp1
    show p = req.peer
    rw [← hcoh, hre2]

theorem stales_erase_inv {s : SState} (hs : Inv s) (pid : PeerId) :
    Inv { s with stales := aerase pid s.stales } := by
  refine ⟨hs.pk, (aerase_map_fst_sublist _ _).nodup hs.sk, hs.pcoh, ?_, ?_, hs.hvals,
    hs.hnd, hs.ordeq, hs.hsort, hs.tarm, hs.texp, hs.fresh⟩
  · intro x hx
    exact hs.scoh x (mem_aerase.1 hx).1
  · intro k hk hk2
    exact hs.disj k hk ((aerase_map_fst_sublist _ _).subset hk2)

theorem handleLeave_inv {s : SState} (pid : PeerId) (hs : Inv s) :
    Inv (handleLeave s pid).1 := by
  cases hp : alook pid s.pending with
  | none =>
    have hred : handleLeave s pid =
        (match alook pid s.stales with
         | some req2 => ({ s with stales := aerase pid s.stales }, [Call.closeReq req2.rid])
         | none => (s, [])) := by
      simp [handleLeave, hp]
    rw [hred]
    cases hq : alook pid s.stales with
    | none => exact hs
    | some req2 => exact stales_erase_inv hs pid
  | some req =>
    have hmem : (pid, req) ∈ s.pending := alook_mem hp
    have hpeer : req.peer = pid := hs.pcoh _ hmem
    obtain ⟨e1, e2, e3, e4, e5, e6, e7⟩ :=
      removeFromHeap_spec { s with pending := aerase pid s.pending } req hs.hnd hs.ordeq
    have hqs : alook pid (removeFromHeap { s with pending := aerase pid s.pending } req).stales =
        none := by
      rw [e2]
      exact alook_eq_none.2 (hs.disj pid (mem_keys_of_mem hmem))
    have hred : handleLeave s pid =
        (removeFromHeap { s with pending := aerase pid s.pending } req,
         [Call.unreserve pid, Call.closeReq req.rid]) := by
      simp [handleLeave, hp, hqs]
    rw [hred]
    have htimer := timer_facts hs.tarm hs.texp
      (by
        rcases e7 with ⟨h1, h2⟩ | ⟨d, tl, hdec, htl, htim⟩
        · exact Or.inl ⟨h1, h2⟩
        · refine Or.inr ?_
          rw [htim, htl])
    refine ⟨?_, ?_, ?_, ?_, ?_, ?_, ?_, e6, ?_, htimer.1, htimer.2, ?_⟩
    · rw [e1]
      exact (aerase_map_fst_sublist _ _).nodup hs.pk
    · rw [e2]
      exact hs.sk
    · intro x hx
      rw [e1] at hx
      exact hs.pcoh x (mem_aerase.1 hx).1
    · intro x hx
      rw [e2] at hx
      exact hs.scoh x hx
    · intro k hk hk2
      rw [e1] at hk
      rw [e2] at hk2
      exact hs.disj k ((aerase_map_fst_sublist _ _).subset hk) hk2
    · intro r
      rw [e1, e5]
      have := hvals_erase hs (hpeer ▸ hmem) r
      rwa [hpeer] at this
    · rw [e5]
      exact (aerase_map_fst_sublist _ _).nodup hs.hnd
    · rw [e5]
      exact hs.hsort.filter _
    · intro x hx
      rw [e4]
      rw [e5] at hx
      exact hs.fresh x (mem_aerase.1 hx).1

theorem cons_tail_aerase {e : Request × Int} {tl : List (Request × Int)}
    (hnd : ((e :: tl).map Prod.fst).Nodup) : aerase e.1 (e :: tl) = tl := by
  simp only [List.map_cons, List.nodup_cons] at hnd
  have h1 : aerase e.1 tl = tl := aerase_eq_self hnd.1
  have h2 : aerase e.1 (e :: tl) = aerase e.1 tl := by
    simp [aerase, List.filter_cons]
  rw [h2, h1]

theorem handleTimeout_inv {s : SState} {env : Env} (hs : Inv s) :
    Inv (resState (handleTimeout s env).1) := by
  cases hh : s.timeouts.head? with
  | none =>
    have hred : handleTimeout s env = (.next s, []) := by
      simp [handleTimeout, hh]
    rw [hred]
    exact hs
  | some e =>
    by_cases hnow : env.now < e.2
    · have hred : handleTimeout s env = (.next { s with timer := some e.2 }, []) := by
        simp [handleTimeout, hh, hnow]
      rw [hred]
      show Inv { s with timer := some e.2 }
      refine ⟨hs.pk, hs.sk, hs.pcoh, hs.scoh, hs.disj, hs.hvals, hs.hnd, hs.ordeq, hs.hsort,
        ?_, ?_, hs.fresh⟩
      · constructor
        · intro habs
          exact Option.noConfusion habs
        · intro hnil
          have hnil2 : s.timeouts = [] := hnil
          rw [hnil2] at hh
          exact Option.noConfusion hh
      · intro E e2 hE he2
        have hE2 : some e.2 = some E := hE
        injection hE2 with hE2
        have he3 : s.timeouts.head? = some e2 := he2
        rw [hh] at he3
        injection he3 with he3
        rw [← he3]
        exact le_of_eq hE2
    · cases hts : s.timeouts with
      | nil =>
        rw [hts] at hh
        cases hh
      | cons e0 tl =>
        have he0 : e0 = e := by
          rw [hts] at hh
          injection hh
        subst he0
        have hndc : ((e0 :: tl).map Prod.fst).Nodup := hts ▸ hs.hnd
        have hmm : (e0.1.peer, e0.1) ∈ s.pending := by
          have h1 : ∃ d, (e0.1, d) ∈ s.timeouts :=
            ⟨e0.2, by
              rw [hts]
              exact List.mem_cons_self _ _⟩
          obtain ⟨p, hp⟩ := (hs.hvals e0.1).1 h1
          have hc : e0.1.peer = p := hs.pcoh _ hp
          rw [← hc] at hp
          exact hp
        have htail : s.timeouts.tail = tl := by
          rw [hts]
          rfl
        have htl : tl = aerase e0.1 s.timeouts := by
          rw [hts, cons_tail_aerase hndc]
        have hres : resState (handleTimeout s env).1 = { s with
            pending := aerase e0.1.peer s.pending,
            stales := ains e0.1.peer e0.1 s.stales,
            timeouts := s.timeouts.tail,
            timer := (s.timeouts.tail.head?).map Prod.snd,
            ordering := aerase e0.1 (indexAssoc s.timeouts.tail) } := by
          simp only [handleTimeout, hh, if_neg hnow]
          split
          · rfl
          · split
            · rfl
            · split
              · rfl
              · rfl
        rw [hres]
        have hkeys : e0.1 ∉ (s.timeouts.tail).map Prod.fst := by
          rw [htail]
          simp only [List.map_cons, List.nodup_cons] at hndc
          exact hndc.1
        refine ⟨?_, ?_, ?_, ?_, ?_, ?_, ?_, ?_, ?_, ?_, ?_, ?_⟩
        · exact (aerase_map_fst_sublist _ _).nodup hs.pk
        · exact keys_ains_nodup hs.sk
        · intro x hx
          exact hs.pcoh x (mem_aerase.1 hx).1
        · intro x hx
          rcases mem_ains.1 hx with hx | hx
          · rw [hx]
          · exact hs.scoh x hx.1
        · intro k hk hk2
          obtain ⟨v, hv⟩ := mem_map_fst.1 hk
          obtain ⟨hv1, hv2⟩ := mem_aerase.1 hv
          rcases mem_map_fst.1 hk2 with ⟨w, hw⟩
          rcases mem_ains.1 hw with hw | hw
          · exact hv2 (congrArg Prod.fst hw)
          · exact hs.disj k (mem_map_fst.2 ⟨v, hv1⟩) (mem_map_fst.2 ⟨w, hw.1⟩)
        · intro r
          rw [htail, htl]
          exact hvals_erase hs hmm r
        · rw [htail, htl]
          exact (aerase_map_fst_sublist _ _).nodup hs.hnd
        · show aerase e0.1 (indexAssoc s.timeouts.tail) = indexAssoc s.timeouts.tail
          apply aerase_eq_self
          rw [indexAssoc_map_fst]
          exact hkeys
        · rw [htail, htl]
          exact hs.hsort.filter _
        · exact (timer_facts hs.tarm hs.texp (Or.inr rfl)).1
        · exact (timer_facts hs.tarm hs.texp (Or.inr rfl)).2
        · intro x hx
          rw [htail] at hx
          exact hs.fresh x (by
            rw [hts]
            exact List.mem_cons_of_mem _ hx)

theorem handleResponse_inv {s : SState} {env : Env} {r : Request} {elapsed : Int} (hs : Inv s)
    (hlive : (∃ p, (p, r) ∈ s.pending) ∨ (∃ p, (p, r) ∈ s.stales)) :
    Inv (resState (handleResponse s env r elapsed).1) := by
  obtain ⟨e1, e2, e3, e4, e5, e6, e7⟩ := removeFromHeap_spec s r hs.hnd hs.ordeq
  have hres : resState (handleResponse s env r elapsed).1 =
      { pending := aerase r.peer (removeFromHeap s r).pending,
        stales := aerase r.peer (removeFromHeap s r).stales,
        timeouts := (removeFromHeap s r).timeouts,
        ordering := (removeFromHeap s r).ordering,
        timer := (removeFromHeap s r).timer,
        finished := (removeFromHeap s r).finished,
        nextRid := (removeFromHeap s r).nextRid } := by
    simp only [handleResponse]
    split
    · split
      · rfl
      · split
        · rfl
        · rfl
    · rfl
  rw [hres]
  have hvalsf : ∀ r' : Request,
      (∃ d, (r', d) ∈ aerase r s.timeouts) ↔ (∃ p, (p, r') ∈ aerase r.peer s.pending) := by
    rcases hlive with ⟨p, hp⟩ | ⟨p, hp⟩
    · have hpc : r.peer = p := hs.pcoh _ hp
      rw [← hpc] at hp
      exact hvals_erase hs hp
    · have hpc : r.peer = p := hs.scoh _ hp
      rw [← hpc] at hp
      have hnp : r.peer ∉ s.pending.map Prod.fst := by
        intro hc
        exact hs.disj r.peer hc (mem_keys_of_mem hp)
      have hrh : r ∉ s.timeouts.map Prod.fst := by
        intro hc
        obtain ⟨d, hd⟩ := mem_map_fst.1 hc
        obtain ⟨p2, hp2⟩ := (hs.hvals r).1 ⟨d, hd⟩
        have : r.peer = p2 := hs.pcoh _ hp2
        exact hnp (this ▸ mem_keys_of_mem hp2)
      rw [aerase_eq_self hnp, aerase_eq_self hrh]
      exact hs.hvals
  refine ⟨?_, ?_, ?_, ?_, ?_, ?_, ?_, ?_, ?_, ?_, ?_, ?_⟩
  · show ((aerase r.peer (removeFromHeap s r).pending).map Prod.fst).Nodup
    rw [e1]
    exact (aerase_map_fst_sublist _ _).nodup hs.pk
  · show ((aerase r.peer (removeFromHeap s r).stales).map Prod.fst).Nodup
    rw [e2]
    exact (aerase_map_fst_sublist _ _).nodup hs.sk
  · intro x hx
    have hx2 : x ∈ aerase r.peer (removeFromHeap s r).pending := hx
    rw [e1] at hx2
    exact hs.pcoh x (mem_aerase.1 hx2).1
  · intro x hx
    have hx2 : x ∈ aerase r.peer (removeFromHeap s r).stales := hx
    rw [e2] at hx2
    exact hs.scoh x (mem_aerase.1 hx2).1
  · intro k hk hk2
    have hk3 : k ∈ (aerase r.peer (removeFromHeap s r).pending).map Prod.fst := hk
    have hk4 : k ∈ (aerase r.peer (removeFromHeap s r).stales).map Prod.fst := hk2
    rw [e1] at hk3
    rw [e2] at hk4
    exact hs.disj k ((aerase_map_fst_sublist _ _).subset hk3)
      ((aerase_map_fst_sublist _ _).subset hk4)
  · intro r'
    show (∃ d, (r', d) ∈ (removeFromHeap s r).timeouts) ↔
      (∃ p, (p, r') ∈ aerase r.peer (removeFromHeap s r).pending)
    rw [e1, e5]
    exact hvalsf r'
  · show (((removeFromHeap s r).timeouts).map Prod.fst).Nodup
    rw [e5]
    exact (aerase_map_fst_sublist _ _).nodup hs.hnd
  · exact e6
  · show List.Pairwise (fun a b : Request × Int => a.2 ≤ b.2) (removeFromHeap s r).timeouts
    rw [e5]
    exact hs.hsort.filter _
  · refine (timer_facts hs.tarm hs.texp ?_).1
    rcases e7 with ⟨h1, h2⟩ | ⟨d, tl, hdec, htl, htim⟩
    · exact Or.inl ⟨h1, h2⟩
    · refine Or.inr ?_
      rw [htim, htl]
  · refine (timer_facts hs.tarm hs.texp ?_).2
    rcases e7 with ⟨h1, h2⟩ | ⟨d, tl, hdec, htl, htim⟩
    · exact Or.inl ⟨h1, h2⟩
    · refine Or.inr ?_
      rw [htim, htl]
  · intro x hx
    have hx2 : x ∈ (removeFromHeap s r).timeouts := hx
    rw [e5] at hx2
    show x.1.rid < (removeFromHeap s r).nextRid
    rw [e4]
    exact hs.fresh x (mem_aerase.1 hx2).1

theorem push_inv {s : SState} (hs : Inv s) (pid : PeerId) (sent dl : Int)
    (hp : pid ∉ s.pending.map Prod.fst) (hst : pid ∉ s.stales.map Prod.fst) :
    Inv { s with
      pending := ains pid ⟨s.nextRid, pid, sent⟩ s.pending,
      timeouts := heapPush ⟨s.nextRid, pid, sent⟩ dl s.timeouts,
      ordering := indexAssoc (heapPush ⟨s.nextRid, pid, sent⟩ dl s.timeouts),
      timer := if s.timeouts = [] then some dl else s.timer,
      nextRid := s.nextRid + 1 } := by
  have hfr : (⟨s.nextRid, pid, sent⟩ : Request) ∉ s.timeouts.map Prod.fst := by
    intro hc
    obtain ⟨d, hd⟩ := mem_map_fst.1 hc
    have := hs.fresh _ hd
    simp at this
  refine ⟨keys_ains_nodup hs.pk, hs.sk, ?_, hs.scoh, ?_, ?_, ?_, rfl,
    heapPush_pairwise hs.hsort, ?_, ?_, ?_⟩
  · intro x hx
    rcases mem_ains.1 hx with hx | hx
    · rw [hx]
    · exact hs.pcoh x hx.1
  · intro k hk hk2
    obtain ⟨v, hv⟩ := mem_map_fst.1 hk
    rcases mem_ains.1 hv with hv | hv
    · cases hv
      exact hst hk2
    · exact hs.disj k (mem_map_fst.2 ⟨v, hv.1⟩) hk2
  · intro r
    by_cases hr : r = (⟨s.nextRid, pid, sent⟩ : Request)
    · subst hr
      constructor
      · intro _
        exact ⟨pid, mem_ains.2 (Or.inl rfl)⟩
      · intro _
        exact ⟨dl, mem_heapPush.2 (Or.inl rfl)⟩
    · constructor
      · rintro ⟨d, hd⟩
        rcases mem_heapPush.1 hd with hd | hd
        · exact absurd (congrArg Prod.fst hd) hr
        · obtain ⟨p, hp2⟩ := (hs.hvals r).1 ⟨d, hd⟩
          refine ⟨p, mem_ains.2 (Or.inr ⟨hp2, ?_⟩)⟩
          intro hpe
          have hpe2 : p = pid := hpe
          rw [hpe2] at hp2
          exact hp (mem_keys_of_mem hp2)
      · rintro ⟨p, hp2⟩
        rcases mem_ains.1 hp2 with hp2 | hp2
        · exact absurd (congrArg Prod.snd hp2) hr
        · obtain ⟨d, hd⟩ := (hs.hvals r).2 ⟨p, hp2.1⟩
          exact ⟨d, mem_heapPush.2 (Or.inr hd)⟩
  · rw [((heapPush_perm _ dl s.timeouts).map Prod.fst).nodup_iff]
    simp only [List.map_cons, List.nodup_cons]
    exact ⟨hfr, hs.hnd⟩
  · by_cases hemp : s.timeouts = []
    · rw [if_pos hemp]
      constructor
      · intro habs
        exact Option.noConfusion habs
      · intro habs
        exact absurd habs (heapPush_ne_nil _ _ _)
    · rw [if_neg hemp]
      constructor
      · intro habs
        exact absurd (hs.tarm.1 habs) hemp
      · intro habs
        exact absurd habs (heapPush_ne_nil _ _ _)
  · intro E e hE he
    by_cases hemp : s.timeouts = []
    · have hE2 : some dl = some E := by
        have hEi : (if s.timeouts = [] then some dl else s.timer) = some E := hE
        rwa [if_pos hemp] at hEi
      injection hE2 with hE2
      have he2 : (heapPush ⟨s.nextRid, pid, sent⟩ dl s.timeouts).head? = some e := he
      rw [hemp, heapPush_head_nil] at he2
      injection he2 with he2
      rw [← he2]
      exact le_of_eq hE2
    · have hE2 : s.timer = some E := by
        have hEi : (if s.timeouts = [] then some dl else s.timer) = some E := hE
        rwa [if_neg hemp] at hEi
      cases hts : s.timeouts with
      | nil => exact absurd hts hemp
      | cons e0 tl =>
        have he2 : (heapPush ⟨s.nextRid, pid, sent⟩ dl s.timeouts).head? = some e := he
        rw [hts, heapPush_head_cons] at he2
        injection he2 with he2
        by_cases hle : e0.2 ≤ dl
        · rw [if_pos hle] at he2
          refine hs.texp E e hE2 ?_
          rw [hts, ← he2]
          rfl
        · rw [if_neg hle] at he2
          have h1 : e0.2 ≤ E := hs.texp E e0 hE2 (by rw [hts]; rfl)
          have h2 : e.2 = dl := by rw [← he2]
          rw [h2]
          exact le_trans (le_of_lt (lt_of_not_le hle)) h1
  · intro x hx
    show x.1.rid < s.nextRid + 1
    rcases mem_heapPush.1 hx with hx | hx
    · rw [hx]
      simp
    · have := hs.fresh x hx
      omega

theorem ains_superset {α β : Type} [DecidableEq α] {k : α} {v : β} {l : List (α × β)}
    (hk : k ∉ l.map Prod.fst) : ∀ x ∈ l, x ∈ ains k v l := by
  intro x hx
  refine mem_ains.2 (Or.inr ⟨hx, ?_⟩)
  intro hxk
  exact hk (hxk ▸ mem_keys_of_mem hx)

theorem assignLoop_inv (env : Env) (l : List Peer) (a : AssignOut)
    (hInv : Inv a.st)
    (hnd : (l.map Peer.id).Nodup)
    (hfree : ∀ p ∈ l, p.id ∉ a.st.pending.map Prod.fst ∧ p.id ∉ a.st.stales.map Prod.fst) :
    Inv (assignLoop env l a).st ∧
    (assignLoop env l a).st.stales = a.st.stales ∧
    (∀ x ∈ a.st.pending, x ∈ (assignLoop env l a).st.pending) := by
  induction l generalizing a with
  | nil => exact ⟨hInv, rfl, fun x hx => hx⟩
  | cons peer rest ih =>
    simp only [List.map_cons, List.nodup_cons] at hnd
    by_cases hthr : a.throttled = true
    · have hred : assignLoop env (peer :: rest) a = a := by
        simp [assignLoop, hthr]
      rw [hred]
      exact ⟨hInv, rfl, fun x hx => hx⟩
    · by_cases hq : env.qpending a.kNext = 0
      · have hred : assignLoop env (peer :: rest) a =
            { a with queued := env.qpending a.kNext, kNext := a.kNext + 1 } := by
          simp [assignLoop, hthr, hq]
        rw [hred]
        exact ⟨hInv, rfl, fun x hx => hx⟩
      · cases hro : (env.reserve peer (env.capacityRtt peer)).1 with
        | none =>
          have hred : assignLoop env (peer :: rest) a = assignLoop env rest
              { a with
                queued := env.qpending a.kNext,
                kNext := a.kNext + 1,
                progressed := a.progressed || (env.reserve peer (env.capacityRtt peer)).2.1,
                throttled := a.throttled || (env.reserve peer (env.capacityRtt peer)).2.2,
                trace := a.trace ++ [Call.reserveCall peer.id (env.capacityRtt peer)] } := by
            simp [assignLoop, hthr, hq, hro]
          rw [hred]
          exact ih _ hInv hnd.2 (fun p hp => hfree p (List.mem_cons_of_mem _ hp))
        | some u =>
          by_cases hok : env.requestOk peer = true
          · have hred : assignLoop env (peer :: rest) a = assignLoop env rest
                { st := { a.st with
                    pending := ains peer.id ⟨a.st.nextRid, peer.id, env.now⟩ a.st.pending,
                    timeouts := heapPush ⟨a.st.nextRid, peer.id, env.now⟩
                      (env.now + env.ttl peer) a.st.timeouts,
                    ordering := indexAssoc (heapPush ⟨a.st.nextRid, peer.id, env.now⟩
                      (env.now + env.ttl peer) a.st.timeouts),
                    timer := if a.st.timeouts = [] then some (env.now + env.ttl peer)
                      else a.st.timer,
                    nextRid := a.st.nextRid + 1 },
                  progressed := a.progressed || (env.reserve peer (env.capacityRtt peer)).2.1,
                  throttled := a.throttled || (env.reserve peer (env.capacityRtt peer)).2.2,
                  queued := env.qpending a.kNext, kNext := a.kNext + 1,
                  trace := (a.trace ++ [Call.reserveCall peer.id (env.capacityRtt peer)]) ++
                    [Call.requestCall peer.id] } := by
              simp [assignLoop, hthr, hq, hro, hok]
            rw [hred]
            have hfp := hfree peer (List.mem_cons_self _ _)
            have hpush := push_inv hInv peer.id env.now (env.now + env.ttl peer) hfp.1 hfp.2
            have hfree2 : ∀ p ∈ rest,
                p.id ∉ (ains peer.id (⟨a.st.nextRid, peer.id, env.now⟩ : Request)
                  a.st.pending).map Prod.fst ∧
                p.id ∉ a.st.stales.map Prod.fst := by
              intro p hp
              constructor
              · intro hc
                obtain ⟨v, hv⟩ := mem_map_fst.1 hc
                rcases mem_ains.1 hv with hv | hv
                · have hpid : p.id = peer.id := congrArg Prod.fst hv
                  apply hnd.1
                  rw [← hpid]
                  exact List.mem_map.2 ⟨p, hp, rfl⟩
                · exact (hfree p (List.mem_cons_of_mem _ hp)).1 (mem_map_fst.2 ⟨v, hv.1⟩)
              · exact (hfree p (List.mem_cons_of_mem _ hp)).2
            obtain ⟨c1, c2, c3⟩ := ih
              { st := { a.st with
                  pending := ains peer.id ⟨a.st.nextRid, peer.id, env.now⟩ a.st.pending,
                  timeouts := heapPush ⟨a.st.nextRid, peer.id, env.now⟩
                    (env.now + env.ttl peer) a.st.timeouts,
                  ordering := indexAssoc (heapPush ⟨a.st.nextRid, peer.id, env.now⟩
                    (env.now + env.ttl peer) a.st.timeouts),
                  timer := if a.st.timeouts = [] then some (env.now + env.ttl peer)
                    else a.st.timer,
                  nextRid := a.st.nextRid + 1 },
                progressed := a.progressed || (env.reserve peer (env.capacityRtt peer)).2.1,
                throttled := a.throttled || (env.reserve peer (env.capacityRtt peer)).2.2,
                queued := env.qpending a.kNext,
                kNext := a.kNext + 1,
                trace := (a.trace ++ [Call.reserveCall peer.id (env.capacityRtt peer)]) ++
                  [Call.requestCall peer.id] }
              hpush hnd.2 hfree2
            refine ⟨c1, c2, ?_⟩
            intro x hx
            exact c3 x (ains_superset hfp.1 x hx)
          · have hred : assignLoop env (peer :: rest) a = assignLoop env rest
                { a with
                  queued := env.qpending a.kNext,
                  kNext := a.kNext + 1,
                  progressed := a.progressed || (env.reserve peer (env.capacityRtt peer)).2.1,
                  throttled := a.throttled || (env.reserve peer (env.capacityRtt peer)).2.2,
                  trace := (a.trace ++ [Call.reserveCall peer.id (env.capacityRtt peer)]) ++
                    [Call.requestCall peer.id, Call.unreserve peer.id] } := by
              simp [assignLoop, hthr, hq, hro, hok]
            rw [hred]
            exact ih _ hInv hnd.2 (fun p hp => hfree p (List.mem_cons_of_mem _ hp))

theorem insDesc_perm (x : Peer × Nat) (l : List (Peer × Nat)) :
    List.Perm (insDesc x l) (x :: l) := by
  induction l with
  | nil => rfl
  | cons y ys ih =>
    by_cases hc : y.2 ≤ x.2
    · simp [insDesc, hc]
    · simp only [insDesc, if_neg hc]
      exact (ih.cons y).trans (List.Perm.swap _ _ _)

theorem sortDesc_perm (l : List (Peer × Nat)) : List.Perm (sortDesc l) l := by
  induction l with
  | nil => rfl
  | cons x xs ih => exact (insDesc_perm x (sortDesc xs)).trans (ih.cons x)

theorem collectIdles_mem {pend st : List (PeerId × Request)} {now : Int} {cap : Peer → Nat}
    {l : List Peer} {x : Peer × Nat} (hx : x ∈ (collectIdles pend st now cap l).1) :
    x.1 ∈ l ∧ alook x.1.id pend = none ∧ alook x.1.id st = none ∧ x.2 = cap x.1 := by
  induction l with
  | nil => cases hx
  | cons peer rest ih =>
    cases hp : alook peer.id pend with
    | none =>
      cases hq : alook peer.id st with
      | none =>
        have hred : (collectIdles pend st now cap (peer :: rest)).1 =
            (peer, cap peer) :: (collectIdles pend st now cap rest).1 := by
          simp [collectIdles, hp, hq]
        rw [hred] at hx
        rcases List.mem_cons.1 hx with hx | hx
        · rw [hx]
          exact ⟨List.mem_cons_self _ _, hp, hq, rfl⟩
        · obtain ⟨m1, m2, m3, m4⟩ := ih hx
          exact ⟨List.mem_cons_of_mem _ m1, m2, m3, m4⟩
      | some strq =>
        have hred : (collectIdles pend st now cap (peer :: rest)).1 =
            (collectIdles pend st now cap rest).1 := by
          simp [collectIdles, hp, hq]
        rw [hred] at hx
        obtain ⟨m1, m2, m3, m4⟩ := ih hx
        exact ⟨List.mem_cons_of_mem _ m1, m2, m3, m4⟩
    | some prq =>
      cases hq : alook peer.id st with
      | none =>
        have hred : (collectIdles pend st now cap (peer :: rest)).1 =
            (collectIdles pend st now cap rest).1 := by
          simp [collectIdles, hp, hq]
        rw [hred] at hx
        obtain ⟨m1, m2, m3, m4⟩ := ih hx
        exact ⟨List.mem_cons_of_mem _ m1, m2, m3, m4⟩
      | some strq =>
        have hred : (collectIdles pend st now cap (peer :: rest)).1 =
            (collectIdles pend st now cap rest).1 := by
          simp [collectIdles, hp, hq]
        rw [hred] at hx
        obtain ⟨m1, m2, m3, m4⟩ := ih hx
        exact ⟨List.mem_cons_of_mem _ m1, m2, m3, m4⟩

theorem collectIdles_sublist (pend st : List (PeerId × Request)) (now : Int)
    (cap : Peer → Nat) (l : List Peer) :
    List.Sublist ((collectIdles pend st now cap l).1.map Prod.fst) l := by
  induction l with
  | nil => simp [collectIdles]
  | cons peer rest ih =>
    cases hp : alook peer.id pend with
    | none =>
      cases hq : alook peer.id st with
      | none =>
        have hred : (collectIdles pend st now cap (peer :: rest)).1 =
            (peer, cap peer) :: (collectIdles pend st now cap rest).1 := by
          simp [collectIdles, hp, hq]
        rw [hred]
        exact List.Sublist.cons₂ peer ih
      | some strq =>
        have hred : (collectIdles pend st now cap (peer :: rest)).1 =
            (collectIdles pend st now cap rest).1 := by
          simp [collectIdles, hp, hq]
        rw [hred]
        exact List.Sublist.cons peer ih
    | some prq =>
      cases hq : alook peer.id st with
      | none =>
        have hred : (collectIdles pend st now cap (peer :: rest)).1 =
            (collectIdles pend st now cap rest).1 := by
          simp [collectIdles, hp, hq]
        rw [hred]
        exact List.Sublist.cons peer ih
      | some strq =>
        have hred : (collectIdles pend st now cap (peer :: rest)).1 =
            (collectIdles pend st now cap rest).1 := by
          simp [collectIdles, hp, hq]
        rw [hred]
        exact List.Sublist.cons peer ih

theorem handleEvent_inv {s : SState} {env : Env} {ev : Event} (hs : Inv s)
    (hlv : LiveEvent s ev) : Inv (resState (handleEvent s env ev).1) := by
  cases ev with
  | cancel => exact hs
  | join p => exact hs
  | leave p => exact handleLeave_inv p.id hs
  | timerFired => exact handleTimeout_inv hs
  | response r t => exact handleResponse_inv hs hlv
  | wake c =>
    cases c with
    | true => exact hs
    | false =>
      exact ⟨hs.pk, hs.sk, hs.pcoh, hs.scoh, hs.disj, hs.hvals, hs.hnd, hs.ordeq, hs.hsort,
        hs.tarm, hs.texp, hs.fresh⟩

theorem assignPhase_inv {s : SState} {env : Env} (hs : Inv s)
    (hnd : (env.peers.map Peer.id).Nodup) :
    Inv (assignPhase s env).1.st ∧ (assignPhase s env).1.st.stales = s.stales ∧
    (∀ x ∈ s.pending, x ∈ (assignPhase s env).1.st.pending) := by
  have hperm : List.Perm
      (((sortDesc (collectIdles s.pending s.stales env.now env.capacity1s env.peers).1).map
        Prod.fst).map Peer.id)
      (((collectIdles s.pending s.stales env.now env.capacity1s env.peers).1.map
        Prod.fst).map Peer.id) :=
    ((sortDesc_perm _).map Prod.fst).map Peer.id
  have hsub :=
    (collectIdles_sublist s.pending s.stales env.now env.capacity1s env.peers).map Peer.id
  have hnd2 : (((sortDesc
      (collectIdles s.pending s.stales env.now env.capacity1s env.peers).1).map
      Prod.fst).map Peer.id).Nodup :=
    hperm.nodup_iff.2 (hsub.nodup hnd)
  have hfree : ∀ p ∈ (sortDesc
      (collectIdles s.pending s.stales env.now env.capacity1s env.peers).1).map Prod.fst,
      p.id ∉ s.pending.map Prod.fst ∧ p.id ∉ s.stales.map Prod.fst := by
    intro p hp
    obtain ⟨x, hx, hxp⟩ := List.mem_map.1 hp
    have hx2 := (sortDesc_perm _).mem_iff.1 hx
    obtain ⟨-, m2, m3, -⟩ := collectIdles_mem hx2
    rw [hxp] at m2 m3
    exact ⟨alook_eq_none.1 m2, alook_eq_none.1 m3⟩
  exact assignLoop_inv env _ ⟨s, false, false, env.qpending 1, 2, _⟩ hs hnd2 hfree

theorem step_inv {beacon : Bool} {s : SState} {env : Env} {ev : Event} {s2 : SState}
    {tr : List Call} (hs : Inv s) (hok : EventOK s env ev)
    (hstep : step beacon s env ev = (StepRes.next s2, tr)) : Inv s2 := by
  unfold step at hstep
  by_cases h1 : env.peers.length = 0 ∧ beacon = false
  · rw [if_pos h1] at hstep
    simp at hstep
  · rw [if_neg h1] at hstep
    by_cases h2 : env.qpending 0 = 0
    · rw [if_pos h2] at hstep
      by_cases h3 : s.pending = [] ∧ s.finished = true
      · rw [if_pos h3] at hstep
        simp at hstep
      · rw [if_neg h3] at hstep
        have hinv2 : Inv (resState (handleEvent s env ev).1) := handleEvent_inv hs hok.2
        have hres : resState (handleEvent s env ev).1 = s2 := by
          rw [hstep]
          rfl
        rwa [hres] at hinv2
    · rw [if_neg h2] at hstep
      by_cases h4 : (assignPhase s env).1.progressed = false ∧
          (assignPhase s env).1.throttled = false ∧
          (assignPhase s env).1.st.pending = [] ∧ (assignPhase s env).2 = env.peers.length ∧
          0 < (assignPhase s env).1.queued ∧ beacon = false
      · rw [if_pos h4] at hstep
        simp at hstep
      · rw [if_neg h4] at hstep
        obtain ⟨c1, c2, c3⟩ := assignPhase_inv hs hok.1
        have hlv2 : LiveEvent (assignPhase s env).1.st ev := by
          cases ev with
          | response r t =>
            rcases hok.2 with ⟨p, hp⟩ | ⟨p, hp⟩
            · exact Or.inl ⟨p, c3 _ hp⟩
            · refine Or.inr ⟨p, ?_⟩
              rw [c2]
              exact hp
          | cancel => trivial
          | join p => trivial
          | leave p => trivial
          | timerFired => trivial
          | wake c => trivial
        have hinv2 : Inv (resState (handleEvent (assignPhase s env).1.st env ev).1) :=
          handleEvent_inv c1 hlv2
        have hres : resState (handleEvent (assignPhase s env).1.st env ev).1 = s2 := by
          have hfst : (handleEvent (assignPhase s env).1.st env ev).1 = StepRes.next s2 :=
            congrArg Prod.fst hstep
          rw [hfst]
          rfl
        rwa [hres] at hinv2

theorem reached_inv {beacon : Bool} {s : SState} (h : Reached beacon s) : Inv s := by
  induction h with
  | init => exact inv_initState
  | next hr hok hstep ih => exact step_inv ih hok hstep

theorem alook_ains_self {α β : Type} [DecidableEq α] (k : α) (v : β) (l : List (α × β)) :
    alook k (ains k v l) = some v := by
  simp [ains, alook]

theorem handleTimeout_done_eq {s : SState} {env : Env} {r : Option Err} {s2 : SState}
    {tr : List Call} (h : handleTimeout s env = (StepRes.done r s2, tr)) :
    r = some Err.timeout := by
  cases hh : s.timeouts.head? with
  | none =>
    have hred : handleTimeout s env = (StepRes.next s, []) := by
      simp [handleTimeout, hh]
    rw [hred] at h
    exact StepRes.noConfusion (congrArg Prod.fst h)
  | some e =>
    by_cases hn : env.now < e.2
    · have hred : handleTimeout s env = (StepRes.next { s with timer := some e.2 }, []) := by
        simp [handleTimeout, hh, hn]
      rw [hred] at h
      exact StepRes.noConfusion (congrArg Prod.fst h)
    · simp only [handleTimeout, hh, if_neg hn] at h
      split at h
      · exact StepRes.noConfusion (congrArg Prod.fst h)
      · split at h
        · exact StepRes.noConfusion (congrArg Prod.fst h)
        · split at h
          · have h1 := congrArg Prod.fst h
            injection h1 with h1a _
            exact h1a.symm
          · exact StepRes.noConfusion (congrArg Prod.fst h)

theorem handleResponse_done_eq {s : SState} {env : Env} {r : Request} {t : Int}
    {r2 : Option Err} {s2 : SState} {tr : List Call}
    (h : handleResponse s env r t = (StepRes.done r2 s2, tr)) :
    r2 = some Err.invalidChain := by
  simp only [handleResponse] at h
  split at h
  · split at h
    · have h1 := congrArg Prod.fst h
      injection h1 with h1a _
      exact h1a.symm
    · split at h
      · exact StepRes.noConfusion (congrArg Prod.fst h)
      · exact StepRes.noConfusion (congrArg Prod.fst h)
  · exact StepRes.noConfusion (congrArg Prod.fst h)

theorem handleEvent_done_eq {s : SState} {env : Env} {ev : Event} {r : Option Err}
    {s2 : SState} {tr : List Call} (h : handleEvent s env ev = (StepRes.done r s2, tr)) :
    r = some Err.canceled ∨ r = some Err.timeout ∨ r = some Err.invalidChain := by
  cases ev with
  | cancel =>
    have h1 : StepRes.done (some Err.canceled) s = StepRes.done r s2 :=
      congrArg Prod.fst h
    injection h1 with h1a _
    exact Or.inl h1a.symm
  | join p =>
    exact StepRes.noConfusion (show StepRes.next s = StepRes.done r s2 from
      congrArg Prod.fst h)
  | leave p =>
    exact StepRes.noConfusion
      (show StepRes.next (handleLeave s p.id).1 = StepRes.done r s2 from
        congrArg Prod.fst h)
  | timerFired => exact Or.inr (Or.inl (handleTimeout_done_eq h))
  | response r3 t => exact Or.inr (Or.inr (handleResponse_done_eq h))
  | wake c =>
    cases c with
    | true =>
      exact StepRes.noConfusion (show StepRes.next s = StepRes.done r s2 from
        congrArg Prod.fst h)
    | false =>
      exact StepRes.noConfusion
        (show StepRes.next { s with finished := true } = StepRes.done r s2 from
          congrArg Prod.fst h)

theorem handleEvent_done_some {s : SState} {env : Env} {ev : Event} {r : Option Err}
    {s2 : SState} {tr : List Call} (h : handleEvent s env ev = (StepRes.done r s2, tr)) :
    r ≠ none := by
  intro hr
  rcases handleEvent_done_eq h with h1 | h1 | h1 <;> rw [hr] at h1 <;> exact Option.noConfusion h1

/-! ### The claims -/

/-- C1: on a timer expiry whose deadline has been reached, with the timed-out
peer still known, let `fails` be the value returned by `unreserve`: if
`fails > 2` the scheduler calls `update_capacity(peer, 0, 0)` and keeps the
peer connected (no `dropPeer` call; the peer stays in `stales`); otherwise it
drops the peer from the peer set, and if that peer is the designated master
peer the scheduler terminates with the `Timeout` error (and otherwise
continues, the peer still recorded in `stales`). -/
theorem claim1_timeout_policy (s : SState) (env : Env) (req : Request) (dl : Int)
    (hpeek : s.timeouts.head? = some (req, dl))
    (hreach : dl ≤ env.now)
    (hknown : env.peerKnown req.peer = true) :
    if 2 < env.unreserveFails req.peer then
      Call.updateCapacity req.peer 0 0 ∈ (handleTimeout s env).2 ∧
      (∀ p, Call.dropPeer p ∉ (handleTimeout s env).2) ∧
      ∃ s2, (handleTimeout s env).1 = StepRes.next s2 ∧ alook req.peer s2.stales = some req
    else
      Call.dropPeer req.peer ∈ (handleTimeout s env).2 ∧
      (req.peer = env.masterPeer →
        ∃ s2, (handleTimeout s env).1 = StepRes.done (some Err.timeout) s2) ∧
      (req.peer ≠ env.masterPeer →
        ∃ s2, (handleTimeout s env).1 = StepRes.next s2 ∧
          alook req.peer s2.stales = some req) := by
  have hnow : ¬ env.now < dl := not_lt.2 hreach
  by_cases hf : 2 < env.unreserveFails req.peer
  · rw [if_pos hf]
    have hred : handleTimeout s env =
        (StepRes.next { s with
          pending := aerase req.peer s.pending,
          stales := ains req.peer req s.stales,
          timeouts := s.timeouts.tail,
          timer := (s.timeouts.tail.head?).map Prod.snd,
          ordering := aerase req (indexAssoc s.timeouts.tail) },
         [Call.unreserve req.peer, Call.updateCapacity req.peer 0 0]) := by
      simp [handleTimeout, hpeek, hnow, hknown, hf]
    rw [hred]
    refine ⟨by simp, by simp, ⟨_, rfl, ?_⟩⟩
    exact alook_ains_self req.peer req s.stales
  · rw [if_neg hf]
    by_cases hm : req.peer = env.masterPeer
    · have hknown2 : env.peerKnown env.masterPeer = true := by
        rw [← hm]
        exact hknown
      have hf2 : ¬ 2 < env.unreserveFails env.masterPeer := by
        rw [← hm]
        exact hf
      have hred : handleTimeout s env =
          (StepRes.done (some Err.timeout) { s with
            pending := aerase req.peer s.pending,
            stales := ains req.peer req s.stales,
            timeouts := s.timeouts.tail,
            timer := (s.timeouts.tail.head?).map Prod.snd,
            ordering := aerase req (indexAssoc s.timeouts.tail) },
           [Call.unreserve req.peer, Call.dropPeer req.peer, Call.cancelCall]) := by
        simp [handleTimeout, hpeek, hnow, hknown, hknown2, hf, hf2, hm]
      rw [hred]
      exact ⟨by simp, fun _ => ⟨_, rfl⟩, fun hc => absurd hm hc⟩
    · have hred : handleTimeout s env =
          (StepRes.next { s with
            pending := aerase req.peer s.pending,
            stales := ains req.peer req s.stales,
            timeouts := s.timeouts.tail,
            timer := (s.timeouts.tail.head?).map Prod.snd,
            ordering := aerase req (indexAssoc s.timeouts.tail) },
           [Call.unreserve req.peer, Call.dropPeer req.peer]) := by
        simp [handleTimeout, hpeek, hnow, hknown, hf, hm]
      rw [hred]
      refine ⟨by simp, fun hc => absurd hc hm, fun _ => ⟨_, rfl, ?_⟩⟩
      exact alook_ains_self req.peer req s.stales

theorem claim1_timeout_policy_witness :
    Call.updateCapacity "A" 0 0 ∈
      (handleTimeout ⟨[("A", ⟨0, "A", 0⟩)], [], [(⟨0, "A", 0⟩, 100)], [(⟨0, "A", 0⟩, 0)],
        some 100, false, 1⟩
        ⟨150, [⟨"A"⟩], fun _ => 0, fun _ => 0, fun _ => 0, fun _ _ => (none, false, false),
          fun _ => false, fun _ => 0, fun _ => 5, fun _ => true, "M", fun _ => (0, DErr.ok)⟩).2 := by
  have h := claim1_timeout_policy
    ⟨[("A", ⟨0, "A", 0⟩)], [], [(⟨0, "A", 0⟩, 100)], [(⟨0, "A", 0⟩, 0)], some 100, false, 1⟩
    ⟨150, [⟨"A"⟩], fun _ => 0, fun _ => 0, fun _ => 0, fun _ _ => (none, false, false),
      fun _ => false, fun _ => 0, fun _ => 5, fun _ => true, "M", fun _ => (0, DErr.ok)⟩
    ⟨0, "A", 0⟩ 100 rfl (by decide) rfl
  rw [if_pos (by decide)] at h
  exact h.1

/-- C2: when the timeout timer fires, the scheduler peeks the heap minimum;
if the current time is before that deadline it re-arms the timer for that
deadline and changes no other state (and makes no external call); otherwise
it moves the request's peer from `pending` to `stales`, pops the request off
the deadline heap, re-arms the timer to the new heap minimum when the heap
remains non-empty (leaves it disarmed otherwise), and calls `unreserve` for
that peer. -/
theorem claim2_timer_fire (s : SState) (env : Env) (req : Request) (dl : Int)
    (hpeek : s.timeouts.head? = some (req, dl)) :
    (env.now < dl → handleTimeout s env = (StepRes.next { s with timer := some dl }, [])) ∧
    (dl ≤ env.now →
      Call.unreserve req.peer ∈ (handleTimeout s env).2 ∧
      resState (handleTimeout s env).1 = { s with
        pending := aerase req.peer s.pending,
        stales := ains req.peer req s.stales,
        timeouts := s.timeouts.tail,
        ordering := aerase req (indexAssoc s.timeouts.tail),
        timer := (s.timeouts.tail.head?).map Prod.snd }) := by
  constructor
  · intro hnow
    simp [handleTimeout, hpeek, hnow]
  · intro hreach
    have hnow : ¬ env.now < dl := not_lt.2 hreach
    constructor
    · simp only [handleTimeout, hpeek, if_neg hnow]
      split
      · simp
      · split
        · simp
        · split
          · simp
          · simp
    · simp only [handleTimeout, hpeek, if_neg hnow]
      split
      · rfl
      · split
        · rfl
        · split
          · rfl
          · rfl

theorem claim2_timer_fire_witness :
    (150 : Int) ≤ 150 ∧
    Call.unreserve "A" ∈
      (handleTimeout ⟨[("A", ⟨0, "A", 0⟩)], [], [(⟨0, "A", 0⟩, 150)], [(⟨0, "A", 0⟩, 0)],
        some 150, false, 1⟩
        ⟨150, [⟨"A"⟩], fun _ => 0, fun _ => 0, fun _ => 0, fun _ _ => (none, false, false),
          fun _ => false, fun _ => 0, fun _ => 1, fun _ => true, "M", fun _ => (0, DErr.ok)⟩).2 := by
  refine ⟨by decide, ?_⟩
  have h := claim2_timer_fire
    ⟨[("A", ⟨0, "A", 0⟩)], [], [(⟨0, "A", 0⟩, 150)], [(⟨0, "A", 0⟩, 0)], some 150, false, 1⟩
    ⟨150, [⟨"A"⟩], fun _ => 0, fun _ => 0, fun _ => 0, fun _ _ => (none, false, false),
      fun _ => false, fun _ => 0, fun _ => 1, fun _ => true, "M", fun _ => (0, DErr.ok)⟩
    ⟨0, "A", 0⟩ 150 rfl
  exact (h.2 (by decide)).1

/-- C3: in the delivery handler, `deliver(peer, response)` is invoked exactly
when the responding peer is still known to the peer set; if `deliver`
reports `InvalidChain` the scheduler terminates returning that error (so no
capacity update happens); otherwise `update_capacity(peer, accepted,
elapsed)` is called if and only if the delivery was not reported as
`StaleDelivery`, and on a stale delivery no capacity update of any kind
occurs. -/
theorem claim3_delivery (s : SState) (env : Env) (r : Request) (t : Int) :
    (Call.deliverCall r.peer r.rid ∈ (handleResponse s env r t).2 ↔
      env.peerKnown r.peer = true) ∧
    (env.peerKnown r.peer = true → (env.deliver r).2 = DErr.invalidChain →
      ∃ s2, (handleResponse s env r t).1 = StepRes.done (some Err.invalidChain) s2) ∧
    (env.peerKnown r.peer = true → (env.deliver r).2 ≠ DErr.invalidChain →
      (Call.updateCapacity r.peer (env.deliver r).1 t ∈ (handleResponse s env r t).2 ↔
        (env.deliver r).2 ≠ DErr.staleDelivery)) ∧
    ((env.deliver r).2 = DErr.staleDelivery →
      ∀ p n e, Call.updateCapacity p n e ∉ (handleResponse s env r t).2) := by
  by_cases hk : env.peerKnown r.peer = true
  · by_cases hi : (env.deliver r).2 = DErr.invalidChain
    · have hred : handleResponse s env r t =
          (StepRes.done (some Err.invalidChain)
            { removeFromHeap s r with
              pending := aerase r.peer (removeFromHeap s r).pending,
              stales := aerase r.peer (removeFromHeap s r).stales },
           [Call.doneSignal r.rid, Call.closeReq r.rid, Call.deliverCall r.peer r.rid]) := by
        simp [handleResponse, hk, hi]
      rw [hred]
      refine ⟨by simp [hk], fun _ _ => ⟨_, rfl⟩, fun _ hni => absurd hi hni, fun hst => ?_⟩
      rw [hi] at hst
      cases hst
    · by_cases hst : (env.deliver r).2 = DErr.staleDelivery
      · have hred : handleResponse s env r t =
            (StepRes.next
              { removeFromHeap s r with
                pending := aerase r.peer (removeFromHeap s r).pending,
                stales := aerase r.peer (removeFromHeap s r).stales },
             [Call.doneSignal r.rid, Call.closeReq r.rid, Call.deliverCall r.peer r.rid]) := by
          simp [handleResponse, hk, hi, hst]
        rw [hred]
        refine ⟨by simp [hk], fun _ hi2 => absurd hi2 hi, fun _ _ => ?_, fun _ => by simp⟩
        simp [hst]
      · have hred : handleResponse s env r t =
            (StepRes.next
              { removeFromHeap s r with
                pending := aerase r.peer (removeFromHeap s r).pending,
                stales := aerase r.peer (removeFromHeap s r).stales },
             [Call.doneSignal r.rid, Call.closeReq r.rid, Call.deliverCall r.peer r.rid,
              Call.updateCapacity r.peer (env.deliver r).1 t]) := by
          simp [handleResponse, hk, hi, hst]
        rw [hred]
        exact ⟨by simp [hk], fun _ hi2 => absurd hi2 hi, fun _ _ => by simp [hst],
          fun hst2 => absurd hst2 hst⟩
  · have hred : handleResponse s env r t =
        (StepRes.next
          { removeFromHeap s r with
            pending := aerase r.peer (removeFromHeap s r).pending,
            stales := aerase r.peer (removeFromHeap s r).stales },
         [Call.doneSignal r.rid, Call.closeReq r.rid]) := by
      simp [handleResponse, hk]
    rw [hred]
    refine ⟨?_, fun hk2 => absurd hk2 hk, fun hk2 => absurd hk2 hk, fun _ => by simp⟩
    simp [hk]

theorem claim3_delivery_witness :
    Call.deliverCall "A" 0 ∈
      (handleResponse ⟨[("A", ⟨0, "A", 0⟩)], [], [(⟨0, "A", 0⟩, 100)], [(⟨0, "A", 0⟩, 0)],
        some 100, false, 1⟩
        ⟨50, [⟨"A"⟩], fun _ => 0, fun _ => 0, fun _ => 0, fun _ _ => (none, false, false),
          fun _ => false, fun _ => 0, fun _ => 1, fun _ => true, "M", fun _ => (7, DErr.ok)⟩
        ⟨0, "A", 0⟩ 42).2 := by
  have h := claim3_delivery
    ⟨[("A", ⟨0, "A", 0⟩)], [], [(⟨0, "A", 0⟩, 100)], [(⟨0, "A", 0⟩, 0)], some 100, false, 1⟩
    ⟨50, [⟨"A"⟩], fun _ => 0, fun _ => 0, fun _ => 0, fun _ _ => (none, false, false),
      fun _ => false, fun _ => 0, fun _ => 1, fun _ => true, "M", fun _ => (7, DErr.ok)⟩
    ⟨0, "A", 0⟩ 42
  exact h.1.2 rfl

/-- C4: a `wake(false)` event sets the `finished` flag and nothing else, and
the scheduler loop returns success (the nil error) only from a state in
which `finished` is set and the `pending` map is empty: whenever `finished`
is false or some request is still pending, no iteration returns success. -/
theorem claim4_success_condition :
    (∀ (s : SState) (env : Env),
      handleEvent s env (Event.wake false) = (StepRes.next { s with finished := true }, [])) ∧
    (∀ (beacon : Bool) (s : SState) (env : Env) (ev : Event) (s2 : SState) (tr : List Call),
      step beacon s env ev = (StepRes.done none s2, tr) →
      s.finished = true ∧ s.pending = []) := by
  constructor
  · intro s env
    rfl
  · intro beacon s env ev s2 tr h
    unfold step at h
    by_cases h1 : env.peers.length = 0 ∧ beacon = false
    · rw [if_pos h1] at h
      simp at h
    · rw [if_neg h1] at h
      by_cases h2 : env.qpending 0 = 0
      · rw [if_pos h2] at h
        by_cases h3 : s.pending = [] ∧ s.finished = true
        · exact ⟨h3.2, h3.1⟩
        · rw [if_neg h3] at h
          exact absurd rfl (handleEvent_done_some h)
      · rw [if_neg h2] at h
        by_cases h4 : (assignPhase s env).1.progressed = false ∧
            (assignPhase s env).1.throttled = false ∧
            (assignPhase s env).1.st.pending = [] ∧
            (assignPhase s env).2 = env.peers.length ∧
            0 < (assignPhase s env).1.queued ∧ beacon = false
        · rw [if_pos h4] at h
          simp at h
        · rw [if_neg h4] at h
          have hfst : (handleEvent (assignPhase s env).1.st env ev).1 =
              StepRes.done none s2 := congrArg Prod.fst h
          have hpair : handleEvent (assignPhase s env).1.st env ev =
              (StepRes.done none s2, (handleEvent (assignPhase s env).1.st env ev).2) := by
            rw [← hfst]
          exact absurd rfl (handleEvent_done_some hpair)

theorem claim4_success_condition_witness :
    ({ pending := [], stales := [], timeouts := [], ordering := [], timer := none,
       finished := true, nextRid := 0 } : SState).finished = true ∧
    ({ pending := [], stales := [], timeouts := [], ordering := [], timer := none,
       finished := true, nextRid := 0 } : SState).pending = [] :=
  claim4_success_condition.2 false
    { pending := [], stales := [], timeouts := [], ordering := [], timer := none,
      finished := true, nextRid := 0 }
    ⟨0, [⟨"A"⟩], fun _ => 0, fun _ => 0, fun _ => 0, fun _ _ => (none, false, false),
      fun _ => false, fun _ => 0, fun _ => 1, fun _ => true, "M", fun _ => (0, DErr.ok)⟩
    Event.cancel _ _ rfl

theorem mem_map_snd {α β : Type} {l : List (α × β)} {v : β} :
    v ∈ l.map Prod.snd ↔ ∃ k, (k, v) ∈ l := by
  constructor
  · intro h
    rcases List.mem_map.1 h with ⟨x, hx, he⟩
    obtain ⟨a, b⟩ := x
    cases he
    exact ⟨a, hx⟩
  · rintro ⟨k, hk⟩
    exact List.mem_map.2 ⟨(k, v), hk, rfl⟩

/-- C5: in every state reachable by the scheduler loop at an event-selection
point, no peer id is present in both the `pending` map and the `stales` map:
every event handler — including the timer-expiry move from `pending` to
`stales` and the delivery-handler removals — preserves the disjointness of
the two key sets. -/
theorem claim5_pending_stales_disjoint (beacon : Bool) (s : SState) (h : Reached beacon s) :
    ∀ k, k ∈ s.pending.map Prod.fst → k ∉ s.stales.map Prod.fst :=
  (reached_inv h).disj

theorem claim5_pending_stales_disjoint_witness : "A" ∉ cexS1.stales.map Prod.fst :=
  claim5_pending_stales_disjoint false cexS1
    (@Reached.next false initState cexEnv1 (Event.wake true) cexS1
      [Call.reserveCall "A" 10, Call.requestCall "A"]
      Reached.init ⟨by decide, trivial⟩ (by decide))
    "A" (by decide)

/-- C6 counterexample: `cexS2` is reachable by the scheduler loop, its
deadline heap minimum is 30, but the armed timer expiry is 100 — a push onto
a non-empty heap (target timeout shrank from 100 to 20 between the two
assignments) does not re-arm the timer, so "armed expiry equals the heap
minimum" is false at this reachable state. -/
theorem claim6_counterexample :
    Reached false cexS2 ∧ cexS2.timer = some 100 ∧
    cexS2.timeouts.head? = some (⟨1, "B", 10⟩, 30) ∧
    ¬ (∀ E, cexS2.timer = some E → cexS2.timeouts.head?.map Prod.snd = some E) := by
  refine ⟨?_, rfl, rfl, ?_⟩
  · refine @Reached.next false cexS1 cexEnv2 (Event.wake true) cexS2
      [Call.reserveCall "B" 10, Call.requestCall "B"]
      (@Reached.next false initState cexEnv1 (Event.wake true) cexS1
        [Call.reserveCall "A" 10, Call.requestCall "A"]
        Reached.init ⟨by decide, trivial⟩ (by decide))
      ⟨by decide, trivial⟩ (by decide)
  · intro hc
    have h30 := hc 100 rfl
    have h30b : some (30 : Int) = some 100 := h30
    injection h30b with h30b
    exact absurd h30b (by decide)

/-- C6 (amended): in every reachable state, the key set of the `ordering`
map equals the set of requests in the deadline heap, which equals the set of
requests stored as values of the `pending` map, and the timer is armed if
and only if the heap is non-empty; when armed, its expiry is at least the
heap minimum deadline (equality can fail: a push with a shorter target
timeout onto a non-empty heap does not re-arm the timer). -/
theorem claim6_amended_heap_sync (beacon : Bool) (s : SState) (h : Reached beacon s) :
    (∀ r : Request, r ∈ s.ordering.map Prod.fst ↔ r ∈ s.timeouts.map Prod.fst) ∧
    (∀ r : Request, r ∈ s.timeouts.map Prod.fst ↔ r ∈ s.pending.map Prod.snd) ∧
    (s.timer = none ↔ s.timeouts = []) ∧
    (∀ E e, s.timer = some E → s.timeouts.head? = some e → e.2 ≤ E) := by
  have hs := reached_inv h
  refine ⟨?_, ?_, hs.tarm, hs.texp⟩
  · intro r
    rw [hs.ordeq, indexAssoc_map_fst]
  · intro r
    rw [mem_map_fst, mem_map_snd]
    exact hs.hvals r

theorem claim6_amended_heap_sync_witness :
    (∀ r : Request,
      r ∈ initState.ordering.map Prod.fst ↔ r ∈ initState.timeouts.map Prod.fst) ∧
    (∀ r : Request,
      r ∈ initState.timeouts.map Prod.fst ↔ r ∈ initState.pending.map Prod.snd) ∧
    (initState.timer = none ↔ initState.timeouts = []) ∧
    (∀ E e, initState.timer = some E → initState.timeouts.head? = some e → e.2 ≤ E) :=
  claim6_amended_heap_sync false initState Reached.init

/-- C7: an iteration of the scheduler loop terminates with the
`PeersUnavailable` error exactly when an assignment pass ran (peers exist or
beacon mode, and the queue reported work) and afterwards no reservation made
progress, throttling was not signalled, the `pending` map is empty, the
idle-peer list covers the entire peer set, the last queue reading still
reports queued work, and beacon mode is off; if any conjunct fails the
iteration does not return `PeersUnavailable`. -/
theorem claim7_starvation (beacon : Bool) (s : SState) (env : Env) (ev : Event) :
    (∃ sF tr, step beacon s env ev = (StepRes.done (some Err.peersUnavailable) sF, tr)) ↔
    (¬(env.peers.length = 0 ∧ beacon = false) ∧ env.qpending 0 ≠ 0 ∧
      (assignPhase s env).1.progressed = false ∧ (assignPhase s env).1.throttled = false ∧
      (assignPhase s env).1.st.pending = [] ∧ (assignPhase s env).2 = env.peers.length ∧
      0 < (assignPhase s env).1.queued ∧ beacon = false) := by
  constructor
  · rintro ⟨sF, tr, h⟩
    unfold step at h
    by_cases h1 : env.peers.length = 0 ∧ beacon = false
    · rw [if_pos h1] at h
      have h2 := congrArg Prod.fst h
      injection h2 with h2a _
      injection h2a with h2a
      exact absurd h2a (by decide)
    · rw [if_neg h1] at h
      by_cases h2 : env.qpending 0 = 0
      · rw [if_pos h2] at h
        by_cases h3 : s.pending = [] ∧ s.finished = true
        · rw [if_pos h3] at h
          have h4 := congrArg Prod.fst h
          injection h4 with h4a _
          exact Option.noConfusion h4a
        · rw [if_neg h3] at h
          rcases handleEvent_done_eq h with h4 | h4 | h4 <;>
            (injection h4 with h4; exact absurd h4 (by decide))
      · rw [if_neg h2] at h
        by_cases h4 : (assignPhase s env).1.progressed = false ∧
            (assignPhase s env).1.throttled = false ∧
            (assignPhase s env).1.st.pending = [] ∧
            (assignPhase s env).2 = env.peers.length ∧
            0 < (assignPhase s env).1.queued ∧ beacon = false
        · exact ⟨h1, h2, h4.1, h4.2.1, h4.2.2.1, h4.2.2.2.1, h4.2.2.2.2.1, h4.2.2.2.2.2⟩
        · rw [if_neg h4] at h
          have hfst : (handleEvent (assignPhase s env).1.st env ev).1 =
              StepRes.done (some Err.peersUnavailable) sF := congrArg Prod.fst h
          have hpair : handleEvent (assignPhase s env).1.st env ev =
              (StepRes.done (some Err.peersUnavailable) sF,
               (handleEvent (assignPhase s env).1.st env ev).2) := by
            rw [← hfst]
          rcases handleEvent_done_eq hpair with h5 | h5 | h5 <;>
            (injection h5 with h5; exact absurd h5 (by decide))
  · rintro ⟨h1, h2, h3⟩
    refine ⟨(assignPhase s env).1.st, (assignPhase s env).1.trace, ?_⟩
    unfold step
    rw [if_neg h1, if_neg h2, if_pos ⟨h3.1, h3.2.1, h3.2.2.1, h3.2.2.2.1, h3.2.2.2.2.1,
      h3.2.2.2.2.2⟩]

theorem claim7_starvation_witness :
    ∃ sF tr,
      step false initState
        ⟨0, [⟨"A"⟩], fun _ => 1, fun _ => 10, fun _ => 10, fun _ _ => (none, false, false),
          fun _ => true, fun _ => 100, fun _ => 5, fun _ => true, "M", fun _ => (0, DErr.ok)⟩
        Event.cancel =
      (StepRes.done (some Err.peersUnavailable) sF, tr) :=
  (claim7_starvation false initState
    ⟨0, [⟨"A"⟩], fun _ => 1, fun _ => 10, fun _ => 10, fun _ _ => (none, false, false),
      fun _ => true, fun _ => 100, fun _ => 5, fun _ => true, "M", fun _ => (0, DErr.ok)⟩
    Event.cancel).mpr
    ⟨by decide, by decide, by decide, by decide, by decide, by decide, by decide, rfl⟩

theorem collectIdles_drop {pend st : List (PeerId × Request)} {now : Int} {cap : Peer → Nat}
    {l : List Peer} {p : Peer} {r : Request} (hp : p ∈ l)
    (hst : alook p.id st = some r) (hage : timeoutGracePeriod < now - r.sent) :
    Call.dropPeer p.id ∈ (collectIdles pend st now cap l).2 := by
  induction l with
  | nil => cases hp
  | cons peer rest ih =>
    rcases List.mem_cons.1 hp with hp | hp
    · subst hp
      cases hq : alook p.id pend with
      | none =>
        have hred : (collectIdles pend st now cap (p :: rest)).2 =
            (if timeoutGracePeriod < now - r.sent then [Call.dropPeer p.id] else []) ++
            (collectIdles pend st now cap rest).2 := by
          simp [collectIdles, hq, hst]
        rw [hred, if_pos hage]
        exact List.mem_append_left _ (List.mem_cons_self _ _)
      | some prq =>
        have hred : (collectIdles pend st now cap (p :: rest)).2 =
            (if timeoutGracePeriod < now - r.sent then [Call.dropPeer p.id] else []) ++
            (collectIdles pend st now cap rest).2 := by
          simp [collectIdles, hq, hst]
        rw [hred, if_pos hage]
        exact List.mem_append_left _ (List.mem_cons_self _ _)
    · have hrec := ih hp
      cases hq : alook peer.id pend with
      | none =>
        cases hq2 : alook peer.id st with
        | none =>
          have hred : (collectIdles pend st now cap (peer :: rest)).2 =
              (collectIdles pend st now cap rest).2 := by
            simp [collectIdles, hq, hq2]
          rw [hred]
          exact hrec
        | some strq =>
          have hred : (collectIdles pend st now cap (peer :: rest)).2 =
              (if timeoutGracePeriod < now - strq.sent then [Call.dropPeer peer.id] else []) ++
              (collectIdles pend st now cap rest).2 := by
            simp [collectIdles, hq, hq2]
          rw [hred]
          exact List.mem_append_right _ hrec
      | some prq =>
        cases hq2 : alook peer.id st with
        | none =>
          have hred : (collectIdles pend st now cap (peer :: rest)).2 =
              (collectIdles pend st now cap rest).2 := by
            simp [collectIdles, hq, hq2]
          rw [hred]
          exact hrec
        | some strq =>
          have hred : (collectIdles pend st now cap (peer :: rest)).2 =
              (if timeoutGracePeriod < now - strq.sent then [Call.dropPeer peer.id] else []) ++
              (collectIdles pend st now cap rest).2 := by
            simp [collectIdles, hq, hq2]
          rw [hred]
          exact List.mem_append_right _ hrec

theorem assignLoop_trace_mono (env : Env) (l : List Peer) (a : AssignOut) :
    ∃ suff, (assignLoop env l a).trace = a.trace ++ suff := by
  induction l generalizing a with
  | nil => exact ⟨[], by simp [assignLoop]⟩
  | cons peer rest ih =>
    by_cases hthr : a.throttled = true
    · refine ⟨[], ?_⟩
      have hred : assignLoop env (peer :: rest) a = a := by
        simp [assignLoop, hthr]
      rw [hred]
      simp
    · by_cases hq : env.qpending a.kNext = 0
      · refine ⟨[], ?_⟩
        have hred : assignLoop env (peer :: rest) a =
            { a with queued := env.qpending a.kNext, kNext := a.kNext + 1 } := by
          simp [assignLoop, hthr, hq]
        rw [hred]
        simp
      · cases hro : (env.reserve peer (env.capacityRtt peer)).1 with
        | none =>
          have hred : assignLoop env (peer :: rest) a = assignLoop env rest
              { a with
                queued := env.qpending a.kNext,
                kNext := a.kNext + 1,
                progressed := a.progressed || (env.reserve peer (env.capacityRtt peer)).2.1,
                throttled := a.throttled || (env.reserve peer (env.capacityRtt peer)).2.2,
                trace := a.trace ++ [Call.reserveCall peer.id (env.capacityRtt peer)] } := by
            simp [assignLoop, hthr, hq, hro]
          rw [hred]
          obtain ⟨suff, hsuff⟩ := ih _
          exact ⟨[Call.reserveCall peer.id (env.capacityRtt peer)] ++ suff, by
            rw [hsuff]
            simp⟩
        | some u =>
          by_cases hok : env.requestOk peer = true
          · have hred : assignLoop env (peer :: rest) a = assignLoop env rest
                { st := { a.st with
                    pending := ains peer.id ⟨a.st.nextRid, peer.id, env.now⟩ a.st.pending,
                    timeouts := heapPush ⟨a.st.nextRid, peer.id, env.now⟩
                      (env.now + env.ttl peer) a.st.timeouts,
                    ordering := indexAssoc (heapPush ⟨a.st.nextRid, peer.id, env.now⟩
                      (env.now + env.ttl peer) a.st.timeouts),
                    timer := if a.st.timeouts = [] then some (env.now + env.ttl peer)
                      else a.st.timer,
                    nextRid := a.st.nextRid + 1 },
                  progressed := a.progressed || (env.reserve peer (env.capacityRtt peer)).2.1,
                  throttled := a.throttled || (env.reserve peer (env.capacityRtt peer)).2.2,
                  queued := env.qpending a.kNext, kNext := a.kNext + 1,
                  trace := (a.trace ++ [Call.reserveCall peer.id (env.capacityRtt peer)]) ++
                    [Call.requestCall peer.id] } := by
              simp [assignLoop, hthr, hq, hro, hok]
            rw [hred]
            obtain ⟨suff, hsuff⟩ := ih _
            exact ⟨([Call.reserveCall peer.id (env.capacityRtt peer)] ++
              [Call.requestCall peer.id]) ++ suff, by
                rw [hsuff]
                simp⟩
          · have hred : assignLoop env (peer :: rest) a = assignLoop env rest
                { a with
                  queued := env.qpending a.kNext,
                  kNext := a.kNext + 1,
                  progressed := a.progressed || (env.reserve peer (env.capacityRtt peer)).2.1,
                  throttled := a.throttled || (env.reserve peer (env.capacityRtt peer)).2.2,
                  trace := (a.trace ++ [Call.reserveCall peer.id (env.capacityRtt peer)]) ++
                    [Call.requestCall peer.id, Call.unreserve peer.id] } := by
              simp [assignLoop, hthr, hq, hro, hok]
            rw [hred]
            obtain ⟨suff, hsuff⟩ := ih _
            exact ⟨([Call.reserveCall peer.id (env.capacityRtt peer)] ++
              [Call.requestCall peer.id, Call.unreserve peer.id]) ++ suff, by
                rw [hsuff]
                simp⟩

/-- C8 counterexample: in the reachable state `cexS3`, peer A's stale
request was sent at time 0; an iteration at time 200s — beyond the 120s
grace period — whose queue reports no pending work runs no assignment pass,
so the wake handler returns with A still in `stales`, its age exceeding the
grace period, and no `dropPeer` call made during that pass: the claimed
invariant is false after this event handler returns. -/
theorem claim8_counterexample :
    Reached false cexS3 ∧
    step false cexS3 cexEnvW (Event.wake true) = (StepRes.next cexS3, []) ∧
    alook "A" cexS3.stales = some ⟨0, "A", 0⟩ ∧
    timeoutGracePeriod < cexEnvW.now - (Request.sent ⟨0, "A", 0⟩) ∧
    Call.dropPeer "A" ∉ ([] : List Call) := by
  refine ⟨?_, by decide, rfl, by decide, by simp⟩
  refine @Reached.next false cexS1 cexEnvT Event.timerFired cexS3
    [Call.unreserve "A", Call.updateCapacity "A" 0 0]
    (@Reached.next false initState cexEnv1 (Event.wake true) cexS1
      [Call.reserveCall "A" 10, Call.requestCall "A"]
      Reached.init ⟨by decide, trivial⟩ (by decide))
    ⟨by decide, trivial⟩ (by decide)

/-- C8 (amended): the grace-period check runs only inside an assignment
pass, so a stale peer may outlive the grace period while the queue reports
no work; but whenever an iteration does run an assignment pass (the no-peers
check passes and the queue reports pending work), `dropPeer` is called
during that pass for every currently connected peer whose stale request is
older than the grace period — while the peer's entry remains in `stales`. -/
theorem claim8_amended_grace (beacon : Bool) (s : SState) (env : Env) (ev : Event)
    (p : Peer) (r : Request)
    (hguard : ¬(env.peers.length = 0 ∧ beacon = false))
    (hq : env.qpending 0 ≠ 0)
    (hp : p ∈ env.peers)
    (hst : alook p.id s.stales = some r)
    (hage : timeoutGracePeriod < env.now - r.sent) :
    Call.dropPeer p.id ∈ (step beacon s env ev).2 := by
  have hdrop : Call.dropPeer p.id ∈
      (collectIdles s.pending s.stales env.now env.capacity1s env.peers).2 :=
    collectIdles_drop hp hst hage
  have htr : Call.dropPeer p.id ∈ (assignPhase s env).1.trace := by
    obtain ⟨suff, hsuff⟩ := assignLoop_trace_mono env
      ((sortDesc (collectIdles s.pending s.stales env.now env.capacity1s env.peers).1).map
        Prod.fst)
      ⟨s, false, false, env.qpending 1, 2,
        (collectIdles s.pending s.stales env.now env.capacity1s env.peers).2⟩
    show Call.dropPeer p.id ∈ (assignLoop env _ _).trace
    rw [hsuff]
    exact List.mem_append_left _ hdrop
  unfold step
  rw [if_neg hguard, if_neg hq]
  by_cases h4 : (assignPhase s env).1.progressed = false ∧
      (assignPhase s env).1.throttled = false ∧
      (assignPhase s env).1.st.pending = [] ∧ (assignPhase s env).2 = env.peers.length ∧
      0 < (assignPhase s env).1.queued ∧ beacon = false
  · rw [if_pos h4]
    exact htr
  · rw [if_neg h4]
    exact List.mem_append_left _ htr

theorem claim8_amended_grace_witness :
    Call.dropPeer "A" ∈
      (step false cexS3
        ⟨200000000000, [⟨"A"⟩], fun _ => 1, fun _ => 10, fun _ => 10,
          fun _ _ => (none, false, false), fun _ => true, fun _ => 100, fun _ => 5,
          fun _ => true, "M", fun _ => (0, DErr.ok)⟩
        (Event.wake true)).2 :=
  claim8_amended_grace false cexS3
    ⟨200000000000, [⟨"A"⟩], fun _ => 1, fun _ => 10, fun _ => 10,
      fun _ _ => (none, false, false), fun _ => true, fun _ => 100, fun _ => 5,
      fun _ => true, "M", fun _ => (0, DErr.ok)⟩
    (Event.wake true) ⟨"A"⟩ ⟨0, "A", 0⟩ (by decide) (by decide) (by decide) rfl (by decide)

theorem insDesc_pairwise {x : Peer × Nat} {l : List (Peer × Nat)}
    (hp : List.Pairwise (fun a b : Peer × Nat => b.2 ≤ a.2) l) :
    List.Pairwise (fun a b : Peer × Nat => b.2 ≤ a.2) (insDesc x l) := by
  induction l with
  | nil => simp [insDesc]
  | cons y ys ih =>
    rcases List.pairwise_cons.1 hp with ⟨hy, hys⟩
    by_cases hc : y.2 ≤ x.2
    · simp only [insDesc, if_pos hc]
      refine List.pairwise_cons.2 ⟨?_, hp⟩
      intro z hz
      rcases List.mem_cons.1 hz with hz | hz
      · rw [hz]
        exact hc
      · exact le_trans (hy z hz) hc
    · simp only [insDesc, if_neg hc]
      refine List.pairwise_cons.2 ⟨?_, ih hys⟩
      intro z hz
      rcases List.mem_cons.1 ((insDesc_perm x ys).mem_iff.1 hz) with hz | hz
      · rw [hz]
        exact le_of_lt (lt_of_not_le hc)
      · exact hy z hz

theorem sortDesc_pairwise (l : List (Peer × Nat)) :
    List.Pairwise (fun a b : Peer × Nat => b.2 ≤ a.2) (sortDesc l) := by
  induction l with
  | nil => simp [sortDesc]
  | cons x xs ih => exact insDesc_pairwise ih

theorem insDesc_filter (x : Peer × Nat) (m : List (Peer × Nat)) (c : Nat) :
    (insDesc x m).filter (fun y => decide (y.2 = c)) =
      (if x.2 = c then [x] else []) ++ m.filter (fun y => decide (y.2 = c)) := by
  induction m with
  | nil =>
    by_cases hx : x.2 = c <;> simp [insDesc, hx]
  | cons y ys ih =>
    by_cases hc : y.2 ≤ x.2
    · simp only [insDesc, if_pos hc]
      by_cases hx : x.2 = c <;> simp [List.filter_cons, hx]
    · simp only [insDesc, if_neg hc]
      by_cases hx : x.2 = c
      · by_cases hy : y.2 = c
        · exfalso
          have hlt := lt_of_not_le hc
          rw [hx, hy] at hlt
          exact lt_irrefl c hlt
        · simp [List.filter_cons, hx, hy, ih]
      · by_cases hy : y.2 = c
        · simp [List.filter_cons, hx, hy, ih]
        · simp [List.filter_cons, hx, hy, ih]

theorem sortDesc_filter (l : List (Peer × Nat)) (c : Nat) :
    (sortDesc l).filter (fun y => decide (y.2 = c)) =
      l.filter (fun y => decide (y.2 = c)) := by
  induction l with
  | nil => rfl
  | cons x xs ih =>
    show (insDesc x (sortDesc xs)).filter (fun y => decide (y.2 = c)) = _
    rw [insDesc_filter, ih]
    by_cases hx : x.2 = c <;> simp [List.filter_cons, hx]

/-- C9: the assignment pass ranks the idle peers (those in neither `pending`
nor `stales`, paired with their `capacity(peer, 1s)` reading) by capacity
descending with ties in insertion order (the sort is a permutation, sorted
descending, and stable: the sub-list at any fixed capacity is unchanged),
and processes them in that order; the pass stops at a peer once throttling
was signalled or the queue reads zero pending items; each processed peer is
reserved with `capacity(peer, TargetRoundTrip)` items; an absent reservation
skips the peer with no state change; and a dispatch failure records
`unreserve(peer)` and continues with the next peer, also with no state
change.  The sort itself is modelled from the spec (`sort.Sort` over
`peerCapacitySort` is not under src/). -/
theorem claim9_assignment_pass :
    (∀ l : List (Peer × Nat),
      List.Pairwise (fun a b : Peer × Nat => b.2 ≤ a.2) (sortDesc l)) ∧
    (∀ l : List (Peer × Nat), List.Perm (sortDesc l) l) ∧
    (∀ (l : List (Peer × Nat)) (c : Nat),
      (sortDesc l).filter (fun y => decide (y.2 = c)) =
        l.filter (fun y => decide (y.2 = c))) ∧
    (∀ (s : SState) (env : Env),
      (assignPhase s env).1 = assignLoop env
        ((sortDesc (collectIdles s.pending s.stales env.now env.capacity1s env.peers).1).map
          Prod.fst)
        ⟨s, false, false, env.qpending 1, 2,
          (collectIdles s.pending s.stales env.now env.capacity1s env.peers).2⟩) ∧
    (∀ (s : SState) (env : Env) (x : Peer × Nat),
      x ∈ (collectIdles s.pending s.stales env.now env.capacity1s env.peers).1 →
        alook x.1.id s.pending = none ∧ alook x.1.id s.stales = none ∧
        x.2 = env.capacity1s x.1) ∧
    (∀ (env : Env) (peer : Peer) (rest : List Peer) (a : AssignOut),
      a.throttled = true → assignLoop env (peer :: rest) a = a) ∧
    (∀ (env : Env) (peer : Peer) (rest : List Peer) (a : AssignOut),
      a.throttled = false → env.qpending a.kNext = 0 →
      assignLoop env (peer :: rest) a =
        { a with queued := env.qpending a.kNext, kNext := a.kNext + 1 }) ∧
    (∀ (env : Env) (peer : Peer) (rest : List Peer) (a : AssignOut),
      a.throttled = false → env.qpending a.kNext ≠ 0 →
      (env.reserve peer (env.capacityRtt peer)).1 = none →
      assignLoop env (peer :: rest) a = assignLoop env rest
        { a with
          queued := env.qpending a.kNext,
          kNext := a.kNext + 1,
          progressed := a.progressed || (env.reserve peer (env.capacityRtt peer)).2.1,
          throttled := a.throttled || (env.reserve peer (env.capacityRtt peer)).2.2,
          trace := a.trace ++ [Call.reserveCall peer.id (env.capacityRtt peer)] }) ∧
    (∀ (env : Env) (peer : Peer) (rest : List Peer) (a : AssignOut) (u : Unit),
      a.throttled = false → env.qpending a.kNext ≠ 0 →
      (env.reserve peer (env.capacityRtt peer)).1 = some u →
      env.requestOk peer = false →
      assignLoop env (peer :: rest) a = assignLoop env rest
        { a with
          queued := env.qpending a.kNext,
          kNext := a.kNext + 1,
          progressed := a.progressed || (env.reserve peer (env.capacityRtt peer)).2.1,
          throttled := a.throttled || (env.reserve peer (env.capacityRtt peer)).2.2,
          trace := (a.trace ++ [Call.reserveCall peer.id (env.capacityRtt peer)]) ++
            [Call.requestCall peer.id, Call.unreserve peer.id] }) := by
  refine ⟨sortDesc_pairwise, sortDesc_perm, sortDesc_filter, fun s env => rfl,
    ?_, ?_, ?_, ?_, ?_⟩
  · intro s env x hx
    obtain ⟨-, m2, m3, m4⟩ := collectIdles_mem hx
    exact ⟨m2, m3, m4⟩
  · intro env peer rest a hthr
    simp [assignLoop, hthr]
  · intro env peer rest a hthr hq
    simp [assignLoop, hthr, hq]
  · intro env peer rest a hthr hq hro
    simp [assignLoop, hthr, hq, hro]
  · intro env peer rest a u hthr hq hro hok
    simp [assignLoop, hthr, hq, hro, hok]

theorem claim9_assignment_pass_witness :
    assignLoop
      ⟨0, [⟨"A"⟩], fun _ => 1, fun _ => 10, fun _ => 10, fun _ _ => (none, false, false),
        fun _ => true, fun _ => 100, fun _ => 5, fun _ => true, "M", fun _ => (0, DErr.ok)⟩
      [⟨"A"⟩] ⟨initState, false, true, 3, 2, []⟩ =
    ⟨initState, false, true, 3, 2, []⟩ :=
  claim9_assignment_pass.2.2.2.2.2.1
    ⟨0, [⟨"A"⟩], fun _ => 1, fun _ => 10, fun _ => 10, fun _ _ => (none, false, false),
      fun _ => true, fun _ => 100, fun _ => 5, fun _ => true, "M", fun _ => (0, DErr.ok)⟩
    ⟨"A"⟩ [] ⟨initState, false, true, 3, 2, []⟩ rfl

/-- C10: on every termination path of `concurrentFetch` — success, NoPeers,
PeersUnavailable, Timeout, InvalidChain and cancellation alike — the
deferred cleanup invokes the Close operation of every request still present
in the `pending` map and of every request still present in the `stales`
map at the moment of return. -/
theorem claim10_deferred_close (beacon : Bool) (inputs : List (Env × Event))
    (r : Option Err) (sF : SState) (tr : List Call)
    (h : loopRun beacon inputs initState [] = (some r, sF, tr)) :
    (concurrentFetch beacon inputs).1 = some r ∧
    (∀ x ∈ sF.pending,
      Call.closeReq (x : PeerId × Request).2.rid ∈ (concurrentFetch beacon inputs).2) ∧
    (∀ x ∈ sF.stales,
      Call.closeReq (x : PeerId × Request).2.rid ∈ (concurrentFetch beacon inputs).2) := by
  unfold concurrentFetch
  rw [h]
  refine ⟨rfl, ?_, ?_⟩
  · intro x hx
    exact List.mem_append_left _ (List.mem_append_right _
      (List.mem_map.2 ⟨x, hx, rfl⟩))
  · intro x hx
    exact List.mem_append_right _ (List.mem_map.2 ⟨x, hx, rfl⟩)

theorem claim10_deferred_close_witness :
    Call.closeReq 0 ∈
      (concurrentFetch false
        [(cexEnv1, Event.wake true),
         ({ cexEnv1 with qpending := fun _ => 0 }, Event.cancel)]).2 := by
  have h := claim10_deferred_close false
    [(cexEnv1, Event.wake true), ({ cexEnv1 with qpending := fun _ => 0 }, Event.cancel)]
    (some Err.canceled) cexS1 [Call.reserveCall "A" 10, Call.requestCall "A"] (by decide)
  exact h.2.1 ("A", ⟨0, "A", 0⟩) (by decide)

end ConcurrentFetch
